import Mathlib

/-!
Verification development for the BabyCare Timer derived-schedule engine
(`src/src/App.jsx`): a shallow embedding of the pure helpers
`toCSV`, `fromCSV`, `computeLastByType`, `computeNextDue`,
`diffToCountdown` and the import-merge step of `handleImport`,
together with theorems settling the specified properties.

Modelling conventions:
* JavaScript strings are Lean `String`s; `undefined` for the optional
  record fields is `Option.none`.
* JavaScript numbers are modelled by `JsNum`: an exact rational,
  `±Infinity` or `NaN`, with overflow/underflow of out-of-range
  literals to `±Infinity`/`0` (`clampDouble`); time values are exact
  integers (`Int`) in milliseconds.
* `new Date(s).getTime()` / `Date.parse` is modelled by `jsParseMs`,
  which accepts exactly the 24-character ISO-8601 interchange format
  `YYYY-MM-DDTHH:MM:SS.sssZ` that `Date.prototype.toISOString`
  produces (the only format the application itself generates) and
  yields `none` (`NaN`) on anything else.
* `Date.prototype.toISOString` is modelled by `toISOString` /
  `toISOStringE`; the latter records the `RangeError` thrown on an
  invalid time value as `Except.error`.
* `Array.prototype.sort` with the comparator
  `(a,b) => new Date(b.time) - new Date(a.time)` is modelled as a
  stable merge sort whose "may precede" test is `comparator ≤ 0`,
  with a `NaN` comparator value treated as `0`, following the
  `SortCompare` clause of ECMA-262 and the stability guarantee of
  `Array.prototype.sort`.
-/

/- `Rat.add`, `Rat.sub`, `Rat.mul` and `Rat.inv` are `@[irreducible]`
upstream, which blocks kernel evaluation of closed rational terms in
`decide` proofs; restore the default reducibility for this file. -/
attribute [local semireducible] Rat.add Rat.sub Rat.mul Rat.inv

set_option maxRecDepth 8000

/-! ## Decimal rendering and padding (JS `String(n)` and `padStart`) -/

def digitChar (n : Nat) : Char := Char.ofNat (48 + n)

/-- Decimal digits of `n`, most significant first.  Structural
recursion on a fuel argument so that the kernel can evaluate it;
`fuel = n + 1` always suffices. -/
def natDigits : Nat → Nat → List Char
  | 0, _ => []
  | fuel + 1, n =>
    if n < 10 then [digitChar n]
    else natDigits fuel (n / 10) ++ [digitChar (n % 10)]

/-- JS `String(n)` for a non-negative integral number. -/
def jsNatToString (n : Nat) : String := ⟨natDigits (n + 1) n⟩

/-- JS `String(n).padStart(2, "0")` (the source's `pad`). -/
def pad (n : Nat) : String :=
  let s := jsNatToString n
  if s.length < 2 then ⟨List.replicate (2 - s.length) '0' ++ s.data⟩ else s

/-- Zero-pad a decimal rendering to width `w` (used by the
`toISOString` model). -/
def padLeft (w : Nat) (n : Nat) : String :=
  let s := jsNatToString n
  if s.length < w then ⟨List.replicate (w - s.length) '0' ++ s.data⟩ else s

/-! ## Gregorian calendar arithmetic (model of the JS `Date` time value)

`daysFromCivil`/`civilFromDays` convert between a proleptic Gregorian
calendar date and a count of days since the Unix epoch (the standard
era-based algorithm, matching ECMA-262 `MakeDay`/`YearFromTime`). -/

def isLeapYear (y : Int) : Bool := y % 4 = 0 ∧ (y % 100 ≠ 0 ∨ y % 400 = 0)

def daysInMonth (y : Int) (m : Nat) : Nat :=
  if m = 2 then (if isLeapYear y then 29 else 28)
  else if m = 4 ∨ m = 6 ∨ m = 9 ∨ m = 11 then 30
  else 31

def daysFromCivil (y : Int) (m d : Nat) : Int :=
  let y' : Int := if m ≤ 2 then y - 1 else y
  let era : Int := (if 0 ≤ y' then y' else y' - 399) / 400
  let yoe : Nat := (y' - era * 400).toNat
  let mp : Nat := (m + 9) % 12
  let doy : Nat := (153 * mp + 2) / 5 + d - 1
  let doe : Nat := yoe * 365 + yoe / 4 - yoe / 100 + doy
  era * 146097 + (doe : Int) - 719468

def civilFromDays (z : Int) : Int × Nat × Nat :=
  let z' : Int := z + 719468
  let era : Int := (if 0 ≤ z' then z' else z' - 146096) / 146097
  let doe : Nat := (z' - era * 146097).toNat
  let yoe : Nat := (doe - doe / 1460 + doe / 36524 - doe / 146096) / 365
  let y : Int := (yoe : Int) + era * 400
  let doy : Nat := doe - (365 * yoe + yoe / 4 - yoe / 100)
  let mp : Nat := (5 * doy + 2) / 153
  let d : Nat := doy - (153 * mp + 2) / 5 + 1
  let m : Nat := if mp < 10 then mp + 3 else mp - 9
  (if m ≤ 2 then y + 1 else y, m, d)

/-- Largest magnitude (in milliseconds) of a valid ECMAScript time
value; `new Date(ms)` with `|ms|` beyond this bound is an invalid
date, and `toISOString` on it throws a `RangeError`. -/
def maxTimeValue : Nat := 8640000000000000

/-- Model of `Date.prototype.toISOString` on a valid time value
(milliseconds since the Unix epoch). -/
def toISOString (ms : Int) : String :=
  let day : Int := Int.fdiv ms 86400000
  let rem : Nat := (ms - day * 86400000).toNat
  let c := civilFromDays day
  let y := c.1
  let mo := c.2.1
  let da := c.2.2
  let yearPart : String :=
    if 0 ≤ y ∧ y ≤ 9999 then padLeft 4 y.toNat
    else if 0 ≤ y then "+" ++ padLeft 6 y.toNat
    else "-" ++ padLeft 6 (-y).toNat
  yearPart ++ "-" ++ padLeft 2 mo ++ "-" ++ padLeft 2 da ++ "T" ++
    padLeft 2 (rem / 3600000) ++ ":" ++ padLeft 2 (rem % 3600000 / 60000) ++ ":" ++
    padLeft 2 (rem % 60000 / 1000) ++ "." ++ padLeft 3 (rem % 1000) ++ "Z"

/-- Truncation toward zero (ECMA-262 `ToIntegerOrInfinity` on a finite
value). -/
def jsTrunc (q : ℚ) : Int := if 0 ≤ q then q.floor else q.ceil

/-! ## Parsing (model of `Date.parse` on the interchange format) -/

def isDigitChar (c : Char) : Bool := 48 ≤ c.toNat ∧ c.toNat ≤ 57

def digitVal (c : Char) : Nat := c.toNat - 48

def decimalVal : List Char → Nat
  | [] => 0
  | c :: cs => digitVal c * 10 ^ cs.length + decimalVal cs

/-- Model of `new Date(s).getTime()` / `Date.parse s`: accepts exactly
the `YYYY-MM-DDTHH:MM:SS.sssZ` interchange format (what the
application's own `toISOString`-generated timestamps look like),
returning the time value in milliseconds; `none` models `NaN`. -/
def jsParseMs (s : String) : Option Int :=
  match s.data with
  | [y1, y2, y3, y4, '-', m1, m2, '-', d1, d2, 'T',
     h1, h2, ':', i1, i2, ':', s1, s2, '.', f1, f2, f3, 'Z'] =>
    if ([y1, y2, y3, y4, m1, m2, d1, d2, h1, h2, i1, i2, s1, s2, f1, f2, f3].all isDigitChar) then
      let y : Nat := decimalVal [y1, y2, y3, y4]
      let mo : Nat := decimalVal [m1, m2]
      let da : Nat := decimalVal [d1, d2]
      let hh : Nat := decimalVal [h1, h2]
      let mi : Nat := decimalVal [i1, i2]
      let ss : Nat := decimalVal [s1, s2]
      let ff : Nat := decimalVal [f1, f2, f3]
      if 1 ≤ mo ∧ mo ≤ 12 ∧ 1 ≤ da ∧ da ≤ daysInMonth (y : Int) mo ∧
          hh ≤ 23 ∧ mi ≤ 59 ∧ ss ≤ 59 then
        some (daysFromCivil (y : Int) mo da * 86400000 +
          ((hh * 3600000 + mi * 60000 + ss * 1000 + ff : Nat) : Int))
      else none
    else none
  | _ => none

/-! ## JS numbers and coercions (for the interval configuration)

A JavaScript number is modelled as an exact rational extended with the
three special values `+Infinity`, `-Infinity` and `NaN`.  The
arithmetic the modelled code performs (`hours * 3600 * 1000`, adding a
parsed epoch-millisecond value, comparing against `0` and against the
`Date` range bound, truncating to integral milliseconds) is exact on
rationals; IEEE-754 rounding of intermediate results is not modelled
(it is absorbed by the final whole-millisecond truncation for all
non-adversarial magnitudes), but overflow to `Infinity` and underflow
to zero of out-of-range decimal literals are. -/

/-- A JavaScript number: finite (exact rational), `±Infinity` or
`NaN`. -/
inductive JsNum where
  | fin (q : ℚ)
  | posInf
  | negInf
  | nan
deriving DecidableEq, Repr

/-- Smallest magnitude at which an IEEE-754 double rounds to
`Infinity` (`2^1024 - 2^970`). -/
def overflowBound : ℚ := ((2 ^ 1024 - 2 ^ 970 : Nat) : ℚ)

/-- Largest magnitude at which a positive IEEE-754 double rounds to
zero (`2^(-1075)`, half the least denormal). -/
def underflowBound : ℚ := mkRat 1 (2 ^ 1075)

/-- Rounding of an exact literal value to the double range: values at
or beyond the overflow threshold become `±Infinity`, values at or
below the underflow threshold become `0`.  (Within the representable
range the exact rational is kept.) -/
def clampDouble (q : ℚ) : JsNum :=
  if overflowBound ≤ q then .posInf
  else if q ≤ -overflowBound then .negInf
  else if |q| ≤ underflowBound then .fin 0
  else .fin q

/-- A JavaScript value as it can appear in the user-editable
`settings.intervals` map: a number, a string, or `undefined`
(absent). -/
inductive JsVal where
  | vNum (n : JsNum)
  | vStr (s : String)
  | vUndef
deriving DecidableEq, Repr

/-- JS truthiness of a `JsVal` (`0` and `NaN` are falsy numbers, `""`
is a falsy string). -/
def jsTruthy : JsVal → Bool
  | .vNum (.fin q) => q ≠ 0
  | .vNum .posInf => true
  | .vNum .negInf => true
  | .vNum .nan => false
  | .vStr s => s ≠ ""
  | .vUndef => false

/-- JS `a || b`. -/
def jsOr (a b : JsVal) : JsVal := if jsTruthy a then a else b

def isHexDigitChar (c : Char) : Bool :=
  isDigitChar c ∨ (97 ≤ c.toNat ∧ c.toNat ≤ 102) ∨ (65 ≤ c.toNat ∧ c.toNat ≤ 70)

def hexVal (c : Char) : Nat :=
  if isDigitChar c then digitVal c
  else if 97 ≤ c.toNat then c.toNat - 87
  else c.toNat - 55

def isOctDigitChar (c : Char) : Bool := 48 ≤ c.toNat ∧ c.toNat ≤ 55

def isBinDigitChar (c : Char) : Bool := c = '0' ∨ c = '1'

/-- Value of a digit string in base `b`, most significant first. -/
def radixVal (b : Nat) (val : Char → Nat) : List Char → Nat
  | [] => 0
  | c :: cs => val c * b ^ cs.length + radixVal b val cs

/-- Split a character list at the first character satisfying `p`;
the second component is `none` when no such character occurs. -/
def splitOnFirstChar (p : Char → Bool) : List Char → List Char × Option (List Char)
  | [] => ([], none)
  | c :: cs =>
    if p c then ([], some cs)
    else
      let r := splitOnFirstChar p cs
      (c :: r.1, r.2)

/-- `10 ^ e` over the rationals for a signed exponent. -/
def ratPow10 (e : Int) : ℚ :=
  if 0 ≤ e then ((10 ^ e.toNat : Nat) : ℚ) else mkRat 1 (10 ^ (-e).toNat)

/-- ECMA-262 `StrUnsignedDecimalLiteral` (without `Infinity`):
`digits [. digits] [exp]` or `. digits [exp]`, exact value. -/
def parseUnsignedDec (cs : List Char) : Option ℚ :=
  let m := splitOnFirstChar (fun c => c = 'e' ∨ c = 'E') cs
  let ipfp := splitOnFirstChar (fun c => c = '.') m.1
  let ip := ipfp.1
  let fp := (ipfp.2).getD []
  if ip.all isDigitChar ∧ fp.all isDigitChar ∧ (ip ≠ [] ∨ fp ≠ []) then
    let base : ℚ := (decimalVal ip : ℚ) + mkRat (decimalVal fp) (10 ^ fp.length)
    match m.2 with
    | none => some base
    | some ('+' :: ds) =>
      if ds ≠ [] ∧ ds.all isDigitChar then some (base * ratPow10 (decimalVal ds)) else none
    | some ('-' :: ds) =>
      if ds ≠ [] ∧ ds.all isDigitChar then some (base * ratPow10 (-(decimalVal ds : Int)))
      else none
    | some ds =>
      if ds ≠ [] ∧ ds.all isDigitChar then some (base * ratPow10 (decimalVal ds)) else none
  else none

/-- A non-decimal integer literal body (after `0x`/`0o`/`0b`). -/
def parseRadixTail (valid : Char → Bool) (val : Char → Nat) (b : Nat)
    (ds : List Char) : JsNum :=
  if ds ≠ [] ∧ ds.all valid then clampDouble ((radixVal b val ds : Nat) : ℚ) else .nan

/-- A `StrDecimalLiteral` after the optional sign was stripped. -/
def parseSignedTail (cs : List Char) (sign : ℚ) : JsNum :=
  if cs = "Infinity".data then (if 0 < sign then .posInf else .negInf)
  else
    match parseUnsignedDec cs with
    | some q => clampDouble (sign * q)
    | none => .nan

/-- ECMA-262 `StringToNumber`: trimmed empty string is `0`; hex, octal
and binary integer literals (unsigned); otherwise an optionally signed
decimal literal or `Infinity`; anything else is `NaN`.  (Only the
common ASCII whitespace characters are trimmed.) -/
def jsStringToNumber (s : String) : JsNum :=
  let ws := fun c => c = ' ' ∨ c = '\t' ∨ c = '\n' ∨ c = '\r'
  let t := ((s.data.dropWhile ws).reverse.dropWhile ws).reverse
  match t with
  | [] => .fin 0
  | '0' :: 'x' :: ds => parseRadixTail isHexDigitChar hexVal 16 ds
  | '0' :: 'X' :: ds => parseRadixTail isHexDigitChar hexVal 16 ds
  | '0' :: 'o' :: ds => parseRadixTail isOctDigitChar digitVal 8 ds
  | '0' :: 'O' :: ds => parseRadixTail isOctDigitChar digitVal 8 ds
  | '0' :: 'b' :: ds => parseRadixTail isBinDigitChar digitVal 2 ds
  | '0' :: 'B' :: ds => parseRadixTail isBinDigitChar digitVal 2 ds
  | '+' :: rest => parseSignedTail rest 1
  | '-' :: rest => parseSignedTail rest (-1)
  | rest => parseSignedTail rest 1

/-- JS `Number(v)` on a `JsVal`. -/
def jsToNumber : JsVal → JsNum
  | .vNum n => n
  | .vStr s => jsStringToNumber s
  | .vUndef => .nan

/-- `n > 0` on a JS number (`NaN > 0` is false). -/
def jsNumPos : JsNum → Bool
  | .fin q => 0 < q
  | .posInf => true
  | .negInf => false
  | .nan => false

/-- ECMA-262 `TimeClip`: the time value of `new Date(v)` — `none`
(an invalid date) for `NaN`, `±Infinity` and magnitudes beyond
`8.64e15` ms, otherwise the value truncated to integral
milliseconds. -/
def timeClip : JsNum → Option Int
  | .fin q => if |q| ≤ ((maxTimeValue : Nat) : ℚ) then some (jsTrunc q) else none
  | _ => none

/-- `new Date(v).toISOString()`: the `RangeError` thrown on an invalid
time value is recorded as `Except.error`. -/
def toISOStringE (v : JsNum) : Except String String :=
  match timeClip v with
  | some tv => Except.ok (toISOString tv)
  | none => Except.error "RangeError: Invalid time value"

/-- The due-time expression `new Date(last).getTime() + hours*3600*1000`:
`NaN` (an unparseable `last`) propagates, and an infinite `hours`
dominates the finite epoch value. -/
def dueTimeValue (msOpt : Option Int) (hours : JsNum) : JsNum :=
  match msOpt, hours with
  | some ms, .fin q => .fin ((ms : ℚ) + q * 3600 * 1000)
  | some _, .posInf => .posInf
  | some _, .negInf => .negInf
  | some _, .nan => .nan
  | none, _ => .nan

instance [DecidableEq ε] [DecidableEq α] : DecidableEq (Except ε α) := fun x y =>
  match x, y with
  | .ok a, .ok b =>
    if h : a = b then isTrue (by rw [h]) else isFalse (by intro hc; cases hc; exact h rfl)
  | .error a, .error b =>
    if h : a = b then isTrue (by rw [h]) else isFalse (by intro hc; cases hc; exact h rfl)
  | .ok _, .error _ => isFalse (by intro hc; cases hc)
  | .error _, .ok _ => isFalse (by intro hc; cases hc)

/-! ## Event records, category table, settings (`App.jsx` data model) -/

/-- One logged event (`{ id, type, time, amount, notes }`); `none`
models an `undefined` optional field. -/
structure Entry where
  id : String
  type : String
  time : String
  amount : Option String
  notes : Option String
deriving DecidableEq, Repr

/-- One row of the fixed `TYPES` table. -/
structure TypeMeta where
  key : String
  label : String
  emoji : String
deriving DecidableEq, Repr

def TYPES : List TypeMeta :=
  [⟨"leche", "Leche", "🍼"⟩,
   ⟨"simeticona", "Simeticona", "💧"⟩,
   ⟨"vitamina", "Vitamina", "✨"⟩,
   ⟨"panal", "Pañal", "🚼"⟩]

/-- A JS plain object used as a string-keyed map, as an association
list in property insertion order (prototype-chain lookups are not
modelled). -/
abbrev ObjMap (α : Type) : Type := List (String × α)

/-- Property read `m[k]`; `none` models `undefined` (key absent). -/
def ObjMap.get? (m : ObjMap α) (k : String) : Option α :=
  (List.find? (fun p => p.1 == k) m).map (·.2)

/-- Property write `m[k] = v`: overwrite in place if the key exists,
else append. -/
def ObjMap.set : ObjMap α → String → α → ObjMap α
  | [], k, v => [(k, v)]
  | p :: rest, k, v => if p.1 = k then (k, v) :: rest else p :: ObjMap.set rest k v

/-- The `settings` object (only the fields the modelled code reads). -/
structure Settings where
  intervals : ObjMap JsVal
  units : ObjMap String
  babyName : String

def DEFAULT_SETTINGS : Settings :=
  { intervals := [("leche", .vNum (.fin 3)), ("simeticona", .vNum (.fin 6)),
                  ("vitamina", .vNum (.fin 24)), ("panal", .vNum (.fin 3))],
    units := [("leche", "ml"), ("simeticona", "gts"), ("vitamina", "ml"), ("panal", "")],
    babyName := "Bebé" }

/-! ## The sort `[...entries].sort((a,b) => new Date(b.time) - new Date(a.time))`

Modelled as a stable merge sort (kernel-evaluable fuel variant of the
library's `List.mergeSort`, with bridge lemmas) whose "may precede"
test is `comparator ≤ 0`; a `NaN` comparator value counts as `0`
(ECMA-262 `SortCompare`). -/

/-- Value of the comparator `(a,b) => new Date(b.time) - new Date(a.time)`
with `NaN` coerced to `0`. -/
def jsSortCompare (a b : Entry) : Int :=
  match jsParseMs a.time, jsParseMs b.time with
  | some ta, some tb => tb - ta
  | _, _ => 0

/-- "`a` may be placed before `b`": comparator value `≤ 0`. -/
def jsLeDesc (a b : Entry) : Bool := jsSortCompare a b ≤ 0

/-- Fuel-driven copy of `List.merge` (for kernel evaluation). -/
def mergeFuel (le : α → α → Bool) : Nat → List α → List α → List α
  | 0, xs, ys => xs ++ ys
  | _ + 1, [], ys => ys
  | _ + 1, xs, [] => xs
  | fuel + 1, x :: xs, y :: ys =>
    if le x y then x :: mergeFuel le fuel xs (y :: ys)
    else y :: mergeFuel le fuel (x :: xs) ys

/-- Fuel-driven copy of `List.mergeSort` (for kernel evaluation). -/
def mergeSortFuel (le : α → α → Bool) : Nat → List α → List α
  | 0, l => l
  | _ + 1, [] => []
  | _ + 1, [a] => [a]
  | fuel + 1, a :: b :: xs =>
    let n := (a :: b :: xs).length
    let l₁ := mergeSortFuel le fuel ((a :: b :: xs).take ((n + 1) / 2))
    let l₂ := mergeSortFuel le fuel ((a :: b :: xs).drop ((n + 1) / 2))
    mergeFuel le (l₁.length + l₂.length) l₁ l₂

theorem mergeFuel_eq (le : α → α → Bool) :
    ∀ (fuel : Nat) (xs ys : List α), xs.length + ys.length ≤ fuel →
      mergeFuel le fuel xs ys = List.merge xs ys le := by
  intro fuel
  induction fuel with
  | zero =>
    intro xs ys h
    match xs, ys with
    | [], [] => simp [mergeFuel]
    | x :: xs, _ => simp at h
    | [], y :: ys => simp at h
  | succ fuel ih =>
    intro xs ys h
    match xs, ys with
    | [], ys => simp [mergeFuel]
    | x :: xs, [] => simp [mergeFuel]
    | x :: xs, y :: ys =>
      simp only [List.length_cons] at h
      simp only [mergeFuel, List.merge]
      cases hle : le x y
      · simp only [Bool.false_eq_true, if_false]
        rw [ih (x :: xs) ys (by simp; omega)]
      · simp only [if_true]
        rw [ih xs (y :: ys) (by simp; omega)]

theorem mergeSortFuel_eq (le : α → α → Bool) :
    ∀ (fuel : Nat) (l : List α), l.length ≤ fuel →
      mergeSortFuel le fuel l = l.mergeSort le := by
  intro fuel
  induction fuel with
  | zero =>
    intro l h
    match l with
    | [] => simp [mergeSortFuel]
    | x :: xs => simp at h
  | succ fuel ih =>
    intro l h
    match l with
    | [] => simp [mergeSortFuel]
    | [a] => simp [mergeSortFuel]
    | a :: b :: xs =>
      rw [List.mergeSort]
      simp only [mergeSortFuel]
      have h1 : ((a :: b :: xs).take (((a :: b :: xs).length + 1) / 2)).length ≤ fuel := by
        simp only [List.length_take, List.length_cons]
        simp only [List.length_cons] at h
        omega
      have h2 : ((a :: b :: xs).drop (((a :: b :: xs).length + 1) / 2)).length ≤ fuel := by
        simp only [List.length_drop, List.length_cons]
        simp only [List.length_cons] at h
        omega
      rw [ih _ h1, ih _ h2]
      rw [mergeFuel_eq le _ _ _ (Nat.le_refl _)]
      congr 1 <;> simp [List.splitInTwo, List.splitAt_eq]

/-- The sort expression itself. -/
def jsSortByTimeDesc (l : List Entry) : List Entry :=
  mergeSortFuel jsLeDesc l.length l

theorem jsSortByTimeDesc_eq (l : List Entry) :
    jsSortByTimeDesc l = l.mergeSort jsLeDesc :=
  mergeSortFuel_eq jsLeDesc l.length l (Nat.le_refl _)

/-! ## The pure helpers of `App.jsx` (lines 56–86) and the import merge -/

/-- The own property names of `Object.prototype`, inherited by every
plain object: for these keys a property read on a map without an own
binding yields a truthy inherited value instead of `undefined`. -/
def objectPrototypeKeys : List String :=
  ["constructor", "hasOwnProperty", "isPrototypeOf", "propertyIsEnumerable",
   "toLocaleString", "toString", "valueOf", "__proto__",
   "__defineGetter__", "__defineSetter__", "__lookupGetter__", "__lookupSetter__"]

/-- Loop body of `computeLastByType`:
`if (!map[e.type]) map[e.type] = e`.  The map is a plain object
created by `Object.fromEntries`, so a read of a key with no own
property falls back to the prototype chain: for the property names of
`Object.prototype` the read yields the inherited member, which is a
function (or, for `__proto__`, an object) and therefore truthy, and
the event is silently skipped. -/
def lastByTypeStep (map : ObjMap (Option Entry)) (e : Entry) : ObjMap (Option Entry) :=
  match map.get? e.type with
  | some (some _) => map
  | some none => map.set e.type (some e)
  | none =>
    if objectPrototypeKeys.contains e.type then map
    else map.set e.type (some e)

/-- `computeLastByType` (App.jsx lines 56–61). -/
def computeLastByType (entries : List Entry) : ObjMap (Option Entry) :=
  (jsSortByTimeDesc entries).foldl lastByTypeStep (TYPES.map (fun t => (t.key, none)))

/-- `Number(settings?.intervals?.[key] || 0)`. -/
def jsHours (settings : Settings) (key : String) : JsNum :=
  jsToNumber (jsOr ((settings.intervals.get? key).getD .vUndef) (.vNum (.fin 0)))

/-- Loop body of `computeNextDue` for one category `t`. -/
def nextDueStep (lastByType : ObjMap (Option Entry)) (settings : Settings)
    (res : ObjMap (Option String)) (t : TypeMeta) : Except String (ObjMap (Option String)) :=
  let last : Option String := ((lastByType.get? t.key).join).map Entry.time
  let hours : JsNum := jsHours settings t.key
  match last with
  | some s =>
    if s ≠ "" ∧ jsNumPos hours then
      match toISOStringE (dueTimeValue (jsParseMs s) hours) with
      | .ok due => .ok (res.set t.key (some due))
      | .error e => .error e
    else .ok res
  | none => .ok res

/-- `computeNextDue` (App.jsx lines 63–74); `Except.error` models the
`RangeError` thrown by `toISOString` on an invalid time value. -/
def computeNextDue (lastByType : ObjMap (Option Entry)) (settings : Settings) :
    Except String (ObjMap (Option String)) :=
  TYPES.foldlM (nextDueStep lastByType settings) (TYPES.map (fun t => (t.key, none)))

/-- The specification's `addHours(timestamp, hours)` operation, read
off the due-time expression
`new Date(new Date(last).getTime() + hours*3600*1000).toISOString()`;
`none` is its explicit invalid marker. -/
def addHours (iso : String) (h : JsNum) : Option String :=
  match toISOStringE (dueTimeValue (jsParseMs iso) h) with
  | .ok s => some s
  | .error _ => none

/-- `diffToCountdown` (App.jsx lines 76–86), with `Date.now()` passed
explicitly as `now`. -/
def diffToCountdown (isoUntil : Option String) (now : Int) : String :=
  match isoUntil with
  | none => "--:--:--"
  | some u =>
    if u = "" then "--:--:--" else
    match jsParseMs u with
    | none => "--:--:--"
    | some t =>
      let ms := t - now
      if ms ≤ 0 then "¡Ahora!" else
      let s := ms.toNat / 1000
      let h := s / 3600
      let m := s % 3600 / 60
      let ss := s % 60
      pad h ++ ":" ++ pad m ++ ":" ++ pad ss

/-- The merge step of `handleImport` (App.jsx lines 188–192): drop
imported rows whose `id` already exists, append the survivors, re-sort
by time descending. -/
def mergeImport (prev rows : List Entry) : List Entry :=
  let existing := prev.map Entry.id
  let merged := prev ++ rows.filter (fun r => !(existing.contains r.id))
  jsSortByTimeDesc merged

/-! ## CSV codec (`toCSV` / `fromCSV`, App.jsx lines 14–40) -/

/-- `String(s).replace(/"/g, '""')` at the character level. -/
def escChars : List Char → List Char
  | [] => []
  | c :: cs => if c = '"' then '"' :: '"' :: escChars cs else c :: escChars cs

/-- The `escape` helper of `toCSV`: wrap in double quotes, doubling
embedded quotes. -/
def quoteField (s : String) : List Char := '"' :: (escChars s.data ++ ['"'])

/-- `Array.prototype.join` with a separator, at the character level. -/
def joinSep (sep : List Char) : List (List Char) → List Char
  | [] => []
  | [x] => x
  | x :: y :: xs => x ++ sep ++ joinSep sep (y :: xs)

def headerChars : List Char := "id,tipo,hora,cantidad,notas".data

/-- `[r.id, r.type, r.time, r.amount ?? "", r.notes ?? ""]`. -/
def rowFields (r : Entry) : List String :=
  [r.id, r.type, r.time, r.amount.getD "", r.notes.getD ""]

/-- One data row: the quoted-and-escaped fields joined by commas. -/
def quotedLine (vals : List String) : List Char := joinSep [','] (vals.map quoteField)

def rowChars (r : Entry) : List Char := quotedLine (rowFields r)

/-- `toCSV` (App.jsx lines 14–18). -/
def toCSV (rows : List Entry) : String :=
  ⟨joinSep ['\n'] (headerChars :: rows.map rowChars)⟩

/-- `text.split(/\r?\n/)`: a line break is a bare `'\n'` or a
`"\r\n"` pair; a `'\r'` not followed by `'\n'` is ordinary content. -/
def splitLines : List Char → List (List Char)
  | [] => [[]]
  | '\r' :: '\n' :: rest => [] :: splitLines rest
  | '\n' :: rest => [] :: splitLines rest
  | c :: rest =>
    match splitLines rest with
    | [] => [[c]]
    | l :: ls => (c :: l) :: ls

/-- `h.split(',')` (plain split, not quote-aware — exactly how
`fromCSV` treats the header line). -/
def splitOnComma : List Char → List String
  | [] => [""]
  | ',' :: rest => "" :: splitOnComma rest
  | c :: rest =>
    match splitOnComma rest with
    | [] => [⟨[c]⟩]
    | s :: ss => ⟨c :: s.data⟩ :: ss

/-- `String.prototype.trim` (restricted to the common ASCII
whitespace characters). -/
def jsTrim (s : String) : String :=
  let ws := fun c => c = ' ' ∨ c = '\t' ∨ c = '\n' ∨ c = '\r'
  ⟨((s.data.dropWhile ws).reverse.dropWhile ws).reverse⟩

/-- Index of the last occurrence of `k` (later entries of
`Object.fromEntries` overwrite earlier ones). -/
def lastIdxOf : List String → String → Option Nat
  | [], _ => none
  | x :: xs, k =>
    match lastIdxOf xs k with
    | some i => some (i + 1)
    | none => if x = k then some 0 else none

/-- The quote-aware field scanner of `fromCSV` (App.jsx lines 26–36):
`cur` is the current field accumulated in reverse, `inQ` the
inside-quotes flag. -/
def scanRow : List Char → List Char → Bool → List String
  | [], cur, _ => [⟨cur.reverse⟩]
  | '"' :: '"' :: rest, cur, true => scanRow rest ('"' :: cur) true
  | '"' :: rest, cur, true => scanRow rest cur false
  | '"' :: rest, cur, false => scanRow rest cur true
  | ',' :: rest, cur, false => ⟨cur.reverse⟩ :: scanRow rest [] false
  | c :: rest, cur, inQ => scanRow rest (c :: cur) inQ

/-- `const get = (k) => cols[idx[k]] ?? ""` (an absent column name
gives `cols[undefined] ?? "" = ""`). -/
def csvGet (idx : String → Option Nat) (cols : List String) (k : String) : String :=
  match idx k with
  | some i => (cols.get? i).getD ""
  | none => ""

/-- Decoding of one data row of `fromCSV` (App.jsx lines 25–39). -/
def parseRow (idx : String → Option Nat) (line : List Char) : Entry :=
  let cols := scanRow line [] false
  { id := csvGet idx cols "id",
    type := csvGet idx cols "tipo",
    time := csvGet idx cols "hora",
    amount := if csvGet idx cols "cantidad" = "" then none else some (csvGet idx cols "cantidad"),
    notes := if csvGet idx cols "notas" = "" then none else some (csvGet idx cols "notas") }

/-- `fromCSV` (App.jsx lines 20–40) on the already-read file text.
`Except.error` models the `TypeError` raised when the text has no
non-empty line (so that the destructured header `h` is `undefined`). -/
def fromCSV (text : String) : Except String (List Entry) :=
  match (splitLines text.data).filter (fun l => l ≠ []) with
  | [] => Except.error "TypeError: h is undefined"
  | h :: rest =>
    let idx := lastIdxOf ((splitOnComma h).map jsTrim)
    Except.ok (rest.map (parseRow idx))

/-! ## Object-map lemmas -/

theorem ObjMap.get?_set_self (m : ObjMap α) (k : String) (v : α) :
    (m.set k v).get? k = some v := by
  induction m with
  | nil => simp [ObjMap.set, ObjMap.get?, List.find?]
  | cons p rest ih =>
    by_cases h : p.1 = k
    · simp [ObjMap.set, h, ObjMap.get?, List.find?]
    · have hb : (p.1 == k) = false := by simpa using h
      simpa [ObjMap.set, h, ObjMap.get?, List.find?, hb] using ih

theorem ObjMap.get?_set_ne (m : ObjMap α) (k k' : String) (v : α) (h : k ≠ k') :
    (m.set k v).get? k' = m.get? k' := by
  have hb : (k == k') = false := by simpa using h
  induction m with
  | nil => simp [ObjMap.set, ObjMap.get?, List.find?, hb]
  | cons p rest ih =>
    by_cases hp : p.1 = k
    · subst hp
      simp [ObjMap.set, ObjMap.get?, List.find?, hb]
    · by_cases hp' : p.1 = k'
      · have hb' : (p.1 == k') = true := by simpa using hp'
        simp [ObjMap.set, hp, ObjMap.get?, List.find?, hb']
      · have hb' : (p.1 == k') = false := by simpa using hp'
        simpa [ObjMap.set, hp, ObjMap.get?, List.find?, hb'] using ih

/-! ## Characterisation of the `computeLastByType` fold -/

/-- A step on an entry of a different category leaves a key's binding
unchanged. -/
theorem lastByTypeStep_get?_ne (m : ObjMap (Option Entry)) (e : Entry) (k : String)
    (he : e.type ≠ k) : (lastByTypeStep m e).get? k = m.get? k := by
  unfold lastByTypeStep
  match hm : m.get? e.type with
  | some (some _) => rfl
  | some none => exact ObjMap.get?_set_ne m e.type k _ he
  | none =>
    by_cases hc : objectPrototypeKeys.contains e.type
    · rw [if_pos hc]
    · rw [if_neg hc]
      exact ObjMap.get?_set_ne m e.type k _ he

theorem foldl_lastByTypeStep_found (l : List Entry) (m : ObjMap (Option Entry)) (k : String)
    (w : Entry) (h : m.get? k = some (some w)) :
    (l.foldl lastByTypeStep m).get? k = some (some w) := by
  induction l generalizing m with
  | nil => simpa using h
  | cons e l ih =>
    simp only [List.foldl_cons]
    apply ih
    by_cases he : e.type = k
    · subst he
      unfold lastByTypeStep
      rw [h]
      exact h
    · rw [lastByTypeStep_get?_ne m e k he]
      exact h

theorem foldl_lastByTypeStep_null (l : List Entry) (m : ObjMap (Option Entry)) (k : String)
    (h : m.get? k = some none) :
    (l.foldl lastByTypeStep m).get? k = some (l.find? (fun e => e.type == k)) := by
  induction l generalizing m with
  | nil => simpa using h
  | cons e l ih =>
    simp only [List.foldl_cons, List.find?]
    by_cases he : e.type = k
    · subst he
      have hstep : lastByTypeStep m e = m.set e.type (some e) := by
        unfold lastByTypeStep; rw [h]
      rw [hstep, beq_self_eq_true]
      exact foldl_lastByTypeStep_found l _ _ e (ObjMap.get?_set_self m e.type (some e))
    · have hbe : (e.type == k) = false := by simpa using he
      rw [hbe]
      apply ih
      rw [lastByTypeStep_get?_ne m e k he]
      exact h

theorem foldl_lastByTypeStep_absent (l : List Entry) (m : ObjMap (Option Entry)) (k : String)
    (h : m.get? k = none) (hk : ¬ objectPrototypeKeys.contains k) :
    (l.foldl lastByTypeStep m).get? k = (l.find? (fun e => e.type == k)).map some := by
  induction l generalizing m with
  | nil => simpa using h
  | cons e l ih =>
    simp only [List.foldl_cons, List.find?]
    by_cases he : e.type = k
    · subst he
      have hstep : lastByTypeStep m e = m.set e.type (some e) := by
        unfold lastByTypeStep; rw [h, if_neg hk]
      rw [hstep, beq_self_eq_true]
      exact foldl_lastByTypeStep_found l _ _ e (ObjMap.get?_set_self m e.type (some e))
    · have hbe : (e.type == k) = false := by simpa using he
      rw [hbe]
      apply ih
      rw [lastByTypeStep_get?_ne m e k he]
      exact h

/-- Keys that collide with an `Object.prototype` property name are
never bound: the inherited member is truthy, so the assignment is
skipped for every such event. -/
theorem foldl_lastByTypeStep_proto (l : List Entry) (m : ObjMap (Option Entry)) (k : String)
    (h : m.get? k = none) (hk : objectPrototypeKeys.contains k) :
    (l.foldl lastByTypeStep m).get? k = none := by
  induction l generalizing m with
  | nil => simpa using h
  | cons e l ih =>
    simp only [List.foldl_cons]
    apply ih
    by_cases he : e.type = k
    · subst he
      have hstep : lastByTypeStep m e = m := by
        unfold lastByTypeStep; rw [h, if_pos hk]
      rw [hstep]
      exact h
    · rw [lastByTypeStep_get?_ne m e k he]
      exact h

/-- For the four fixed keys, `computeLastByType` returns the first
entry of that category in the stable descending sort. -/
theorem computeLastByType_fixed (entries : List Entry) (t : TypeMeta) (ht : t ∈ TYPES) :
    (computeLastByType entries).get? t.key =
      some ((jsSortByTimeDesc entries).find? (fun e => e.type == t.key)) := by
  apply foldl_lastByTypeStep_null
  fin_cases ht <;> decide

/-- For any other key, the result holds the first entry of that
category in the stable descending sort when one exists, and no binding
otherwise. -/
theorem initMap_get?_none (k : String) (hk : ∀ t ∈ TYPES, t.key ≠ k) :
    (ObjMap.get? (TYPES.map (fun t => (t.key, (none : Option Entry)))) k) = none := by
  have h1 : (("leche" : String) == k) = false := by
    simpa using hk ⟨"leche", "Leche", "🍼"⟩ (by decide)
  have h2 : (("simeticona" : String) == k) = false := by
    simpa using hk ⟨"simeticona", "Simeticona", "💧"⟩ (by decide)
  have h3 : (("vitamina" : String) == k) = false := by
    simpa using hk ⟨"vitamina", "Vitamina", "✨"⟩ (by decide)
  have h4 : (("panal" : String) == k) = false := by
    simpa using hk ⟨"panal", "Pañal", "🚼"⟩ (by decide)
  simp [ObjMap.get?, TYPES, List.find?, h1, h2, h3, h4]

theorem computeLastByType_other (entries : List Entry) (k : String)
    (hk : ∀ t ∈ TYPES, t.key ≠ k) (hpk : ¬ objectPrototypeKeys.contains k) :
    (computeLastByType entries).get? k =
      ((jsSortByTimeDesc entries).find? (fun e => e.type == k)).map some :=
  foldl_lastByTypeStep_absent _ _ _ (initMap_get?_none k hk) hpk

/-- A non-fixed key colliding with an `Object.prototype` property name
is never bound at all. -/
theorem computeLastByType_proto (entries : List Entry) (k : String)
    (hk : ∀ t ∈ TYPES, t.key ≠ k) (hpk : objectPrototypeKeys.contains k) :
    (computeLastByType entries).get? k = none :=
  foldl_lastByTypeStep_proto _ _ _ (initMap_get?_none k hk) hpk

/-! ## Sort lemmas: permutation, sortedness, stability -/

/-- The comparison key: parsed time, with an unparseable time
arbitrary (`0`) — only used under the assumption that all times
parse. -/
def msKey (e : Entry) : Int := (jsParseMs e.time).getD 0

/-- Total, transitive version of the descending "may precede" test. -/
def leKey (a b : Entry) : Bool := msKey b ≤ msKey a

theorem leKey_trans : ∀ a b c : Entry, leKey a b → leKey b c → leKey a c := by
  intro a b c hab hbc
  simp only [leKey, decide_eq_true_eq] at *
  omega

theorem leKey_total : ∀ a b : Entry, leKey a b || leKey b a := by
  intro a b
  simp only [leKey, Bool.or_eq_true, decide_eq_true_eq]
  omega

theorem jsLeDesc_eq_leKey {a b : Entry}
    (ha : (jsParseMs a.time).isSome) (hb : (jsParseMs b.time).isSome) :
    jsLeDesc a b = leKey a b := by
  obtain ⟨ta, hta⟩ := Option.isSome_iff_exists.mp ha
  obtain ⟨tb, htb⟩ := Option.isSome_iff_exists.mp hb
  simp only [jsLeDesc, jsSortCompare, hta, htb, leKey, msKey, Option.getD_some]
  exact decide_eq_decide.mpr (by omega)

theorem jsSortByTimeDesc_eq_leKey (l : List Entry)
    (hp : ∀ e ∈ l, (jsParseMs e.time).isSome) :
    jsSortByTimeDesc l = l.mergeSort leKey := by
  rw [jsSortByTimeDesc_eq]
  have h := List.map_mergeSort (r := jsLeDesc) (s := leKey) (f := id) (l := l)
    (fun a ha b hb => jsLeDesc_eq_leKey (hp a ha) (hp b hb))
  simpa using h

theorem jsSortByTimeDesc_perm (l : List Entry) : List.Perm (jsSortByTimeDesc l) l := by
  rw [jsSortByTimeDesc_eq]; exact List.mergeSort_perm l jsLeDesc

theorem jsSortByTimeDesc_sorted (l : List Entry)
    (hp : ∀ e ∈ l, (jsParseMs e.time).isSome) :
    (jsSortByTimeDesc l).Pairwise (fun a b => msKey b ≤ msKey a) := by
  rw [jsSortByTimeDesc_eq_leKey l hp]
  have h := @List.sorted_mergeSort Entry leKey leKey_trans leKey_total l
  exact h.imp (fun hab => by simpa [leKey] using hab)

theorem jsSortByTimeDesc_stable (l : List Entry)
    (hp : ∀ e ∈ l, (jsParseMs e.time).isSome)
    {a b : Entry} (hab : leKey a b) (hsub : List.Sublist [a, b] l) :
    List.Sublist [a, b] (jsSortByTimeDesc l) := by
  rw [jsSortByTimeDesc_eq_leKey l hp]
  exact List.pair_sublist_mergeSort leKey_trans leKey_total hab hsub

theorem pair_sublist_of_mem {α : Type} {a b : α} {l : List α}
    (ha : a ∈ l) (hb : b ∈ l) (hne : a ≠ b) :
    List.Sublist [a, b] l ∨ List.Sublist [b, a] l := by
  induction l with
  | nil => cases ha
  | cons c t ih =>
    rcases List.mem_cons.mp ha with rfl | ha'
    · left
      have hb' : b ∈ t := by
        rcases List.mem_cons.mp hb with rfl | hb' <;> [exact absurd rfl hne; exact hb']
      exact (List.singleton_sublist.mpr hb').cons₂ a
    · rcases List.mem_cons.mp hb with rfl | hb'
      · right
        exact (List.singleton_sublist.mpr ha').cons₂ b
      · rcases ih ha' hb' with h | h
        · exact Or.inl (h.cons c)
        · exact Or.inr (h.cons c)

/-- The first entry of category `k` in the stable descending sort is a
member of the log, has category `k`, and carries the maximal parsed
timestamp of its category. -/
theorem sortedWinner_max (entries : List Entry) (k : String) (w : Entry)
    (hp : ∀ e ∈ entries, (jsParseMs e.time).isSome)
    (hw : (jsSortByTimeDesc entries).find? (fun e => e.type == k) = some w) :
    w ∈ entries ∧ w.type = k ∧ ∀ e ∈ entries, e.type = k → msKey e ≤ msKey w := by
  obtain ⟨hpw, as, bs, hsplit, has⟩ := List.find?_eq_some.mp hw
  have hperm := jsSortByTimeDesc_perm entries
  have hwmem : w ∈ entries := hperm.mem_iff.mp (by rw [hsplit]; simp)
  have hsorted := jsSortByTimeDesc_sorted entries hp
  refine ⟨hwmem, by simpa using hpw, ?_⟩
  intro e he hek
  have hesort : e ∈ jsSortByTimeDesc entries := hperm.mem_iff.mpr he
  rw [hsplit] at hesort hsorted
  rcases List.mem_append.mp hesort with hin | hin
  · exact absurd (by simpa using hek) (by simpa using has e hin)
  · rcases List.mem_cons.mp hin with rfl | hin
    · exact le_refl _
    · have hpair := (List.pairwise_append.mp hsorted).2.1
      exact List.rel_of_pairwise_cons hpair hin

/-- Among entries of category `k` with the maximal timestamp, the one
returned is the earliest in input order (stability of the sort). -/
theorem sortedWinner_first (entries : List Entry) (k : String) (w : Entry)
    (hp : ∀ e ∈ entries, (jsParseMs e.time).isSome)
    (hnd : entries.Nodup)
    (hw : (jsSortByTimeDesc entries).find? (fun e => e.type == k) = some w) :
    ∀ e ∈ entries, e.type = k → msKey e = msKey w → e ≠ w →
      List.Sublist [w, e] entries := by
  intro e he hek hkey hne
  obtain ⟨hpw, as, bs, hsplit, has⟩ := List.find?_eq_some.mp hw
  have hperm := jsSortByTimeDesc_perm entries
  have hwmem : w ∈ entries := hperm.mem_iff.mp (by rw [hsplit]; simp)
  have hndsort : (jsSortByTimeDesc entries).Nodup := hperm.nodup_iff.mpr hnd
  rcases pair_sublist_of_mem hwmem he hne.symm with h | h
  · exact h
  · exfalso
    have hstab : List.Sublist [e, w] (jsSortByTimeDesc entries) :=
      jsSortByTimeDesc_stable entries hp (by simp [leKey, hkey]) h
    rw [hsplit] at hstab hndsort
    have hwnotas : w ∉ as := by
      intro hmem
      exact (List.disjoint_of_nodup_append hndsort) hmem (by simp)
    have hwnotbs : w ∉ bs := by
      have := (List.nodup_append.mp hndsort).2.1
      simpa using (List.nodup_cons.mp this).1
    rcases List.sublist_append_iff.mp hstab with ⟨l₁, l₂, heq, h₁, h₂⟩
    rcases l₁ with - | ⟨x, - | ⟨y, rest⟩⟩
    · simp only [List.nil_append] at heq
      rw [← heq] at h₂
      cases h₂ with
      | cons _ htail => exact hwnotbs (htail.subset (by simp))
      | cons₂ _ htail => exact hne rfl
    · simp only [List.cons_append, List.nil_append] at heq
      injection heq with h1 h2
      subst h1
      subst h2
      exact absurd (by simpa using hek) (by simpa using has e (h₁.subset (by simp)))
    · simp only [List.cons_append] at heq
      injection heq with h1 h2
      injection h2 with h2 h3
      subst h1
      subst h2
      exact hwnotas (h₁.subset (by simp))

/-! ## Claims C4 and C10: `computeLastByType` -/

/-- C4: for a log of parseable timestamps and unique ids,
`computeLastByType` returns under each fixed category key the event of
that category with the maximum timestamp (`none` when the category is
unlogged); the winner's timestamp is ≥ every other same-category
event's timestamp, and among equal-timestamp candidates the winner is
the one earliest in input order (stable descending sort). -/
theorem claim_C4_computeLastByType (entries : List Entry)
    (hp : ∀ e ∈ entries, (jsParseMs e.time).isSome)
    (hids : (entries.map Entry.id).Nodup) :
    ∀ t ∈ TYPES, ∃ v, (computeLastByType entries).get? t.key = some v ∧
      (v = none ↔ ∀ e ∈ entries, e.type ≠ t.key) ∧
      ∀ w, v = some w → w ∈ entries ∧ w.type = t.key ∧
        (∀ e ∈ entries, e.type = t.key → msKey e ≤ msKey w) ∧
        (∀ e ∈ entries, e.type = t.key → msKey e = msKey w → e ≠ w →
          List.Sublist [w, e] entries) := by
  intro t ht
  refine ⟨(jsSortByTimeDesc entries).find? (fun e => e.type == t.key),
    computeLastByType_fixed entries t ht, ⟨?_, ?_⟩, ?_⟩
  · intro hnone e he hek
    have := List.find?_eq_none.mp hnone e ((jsSortByTimeDesc_perm entries).mem_iff.mpr he)
    simp [hek] at this
  · intro hall
    apply List.find?_eq_none.mpr
    intro x hx
    simpa using hall x ((jsSortByTimeDesc_perm entries).mem_iff.mp hx)
  · intro w hw
    obtain ⟨hmem, htype, hmax⟩ := sortedWinner_max entries t.key w hp hw
    exact ⟨hmem, htype, hmax,
      sortedWinner_first entries t.key w hp (List.Nodup.of_map _ hids) hw⟩

def c4Entries : List Entry :=
  [⟨"a1", "leche", "2024-01-01T10:00:00.000Z", some "120", none⟩,
   ⟨"a2", "leche", "2024-01-01T11:00:00.000Z", none, none⟩,
   ⟨"a3", "leche", "2024-01-01T11:00:00.000Z", some "90", none⟩,
   ⟨"b1", "simeticona", "2024-01-01T03:00:00.000Z", none, none⟩]

theorem claim_C4_witness :
    ((∀ e ∈ c4Entries, (jsParseMs e.time).isSome) ∧ (c4Entries.map Entry.id).Nodup) ∧
    (∀ t ∈ TYPES, ∃ v, (computeLastByType c4Entries).get? t.key = some v ∧
      (v = none ↔ ∀ e ∈ c4Entries, e.type ≠ t.key) ∧
      ∀ w, v = some w → w ∈ c4Entries ∧ w.type = t.key ∧
        (∀ e ∈ c4Entries, e.type = t.key → msKey e ≤ msKey w) ∧
        (∀ e ∈ c4Entries, e.type = t.key → msKey e = msKey w → e ≠ w →
          List.Sublist [w, e] c4Entries)) :=
  ⟨⟨by decide, by decide⟩, claim_C4_computeLastByType c4Entries (by decide) (by decide)⟩

/-- C10 counterexample: an event whose category string is the
`Object.prototype` member name `"toString"` is ignored entirely — the
inherited member is truthy, so `!map[e.type]` is false, no key is
added, and the claim that every unknown category string appears as an
additional key bound to its most recent event fails. -/
theorem claim_C10_counterexample :
    (computeLastByType
        [⟨"t1", "toString", "2024-01-01T10:00:00.000Z", none, none⟩]).get? "toString" =
      none ∧
    computeLastByType [⟨"t1", "toString", "2024-01-01T10:00:00.000Z", none, none⟩] =
      TYPES.map (fun t => (t.key, none)) :=
  ⟨by decide, by decide⟩

/-- C10 (amended): the map always binds all four fixed keys, each to
`none` or to an event of that category; an event with an unknown
category string that does not collide with an `Object.prototype`
property name is not ignored — each such category appears as an
additional key bound to its most recent event, and every `some`
binding in the result is an event of the log whose category equals its
key.  Events whose category string is an `Object.prototype` member
name (`"toString"`, `"constructor"`, `"__proto__"`, …) are silently
dropped: the inherited member is truthy, so no binding is ever
created for them. -/
theorem claim_C10_lastByType_keys (entries : List Entry)
    (hp : ∀ e ∈ entries, (jsParseMs e.time).isSome) :
    (∀ t ∈ TYPES, ∃ v, (computeLastByType entries).get? t.key = some v ∧
      ∀ w, v = some w → w.type = t.key) ∧
    (∀ e ∈ entries, ¬ objectPrototypeKeys.contains e.type →
      ∃ w, (computeLastByType entries).get? e.type = some (some w) ∧
        w.type = e.type ∧ msKey e ≤ msKey w) ∧
    (∀ k v, (computeLastByType entries).get? k = some (some v) →
      v ∈ entries ∧ v.type = k) ∧
    (∀ e ∈ entries, (∀ t ∈ TYPES, t.key ≠ e.type) →
      objectPrototypeKeys.contains e.type →
      (computeLastByType entries).get? e.type = none) := by
  have hfind : ∀ k (w : Entry),
      (jsSortByTimeDesc entries).find? (fun e => e.type == k) = some w →
      w ∈ entries ∧ w.type = k ∧ ∀ e ∈ entries, e.type = k → msKey e ≤ msKey w :=
    fun k w hw => sortedWinner_max entries k w hp hw
  refine ⟨?_, ?_, ?_, ?_⟩
  · intro t ht
    exact ⟨_, computeLastByType_fixed entries t ht,
      fun w hw => (hfind t.key w hw).2.1⟩
  · intro e he hpk
    have hmem : e ∈ jsSortByTimeDesc entries :=
      (jsSortByTimeDesc_perm entries).mem_iff.mpr he
    have hsome : ((jsSortByTimeDesc entries).find? (fun x => x.type == e.type)).isSome :=
      List.find?_isSome.mpr ⟨e, hmem, by simp⟩
    obtain ⟨w, hw⟩ := Option.isSome_iff_exists.mp hsome
    obtain ⟨-, hwt, hwmax⟩ := hfind e.type w hw
    by_cases hfix : ∃ t ∈ TYPES, t.key = e.type
    · obtain ⟨t, ht, htk⟩ := hfix
      refine ⟨w, ?_, hwt, hwmax e he rfl⟩
      rw [← htk, computeLastByType_fixed entries t ht, htk, hw]
    · have hother := computeLastByType_other entries e.type
        (fun t ht hk => hfix ⟨t, ht, hk⟩) hpk
      exact ⟨w, by rw [hother, hw]; rfl, hwt, hwmax e he rfl⟩
  · intro k v hv
    by_cases hfix : ∃ t ∈ TYPES, t.key = k
    · obtain ⟨t, ht, htk⟩ := hfix
      rw [← htk] at hv
      rw [computeLastByType_fixed entries t ht] at hv
      injection hv with hfound
      have := hfind t.key v hfound
      exact ⟨this.1, htk ▸ this.2.1⟩
    · by_cases hpk : objectPrototypeKeys.contains k
      · rw [computeLastByType_proto entries k (fun t ht hk => hfix ⟨t, ht, hk⟩) hpk] at hv
        cases hv
      · have hother := computeLastByType_other entries k
          (fun t ht hk => hfix ⟨t, ht, hk⟩) hpk
        rw [hother] at hv
        cases hfd : (jsSortByTimeDesc entries).find? (fun e => e.type == k) with
        | none => rw [hfd] at hv; cases hv
        | some w =>
          rw [hfd] at hv
          injection hv with h
          injection h with h
          subst h
          have := hfind k w hfd
          exact ⟨this.1, this.2.1⟩
  · intro e he hfix hpk
    exact computeLastByType_proto entries e.type hfix hpk

def c10Entries : List Entry :=
  [⟨"a1", "leche", "2024-01-01T10:00:00.000Z", some "120", none⟩,
   ⟨"m1", "medicina", "2024-01-01T08:00:00.000Z", none, none⟩,
   ⟨"m2", "medicina", "2024-01-01T09:00:00.000Z", none, none⟩,
   ⟨"t1", "valueOf", "2024-01-01T07:00:00.000Z", none, none⟩]

theorem claim_C10_witness :
    (∀ e ∈ c10Entries, (jsParseMs e.time).isSome) ∧
    ((∀ t ∈ TYPES, ∃ v, (computeLastByType c10Entries).get? t.key = some v ∧
      ∀ w, v = some w → w.type = t.key) ∧
    (∀ e ∈ c10Entries, ¬ objectPrototypeKeys.contains e.type →
      ∃ w, (computeLastByType c10Entries).get? e.type = some (some w) ∧
        w.type = e.type ∧ msKey e ≤ msKey w) ∧
    (∀ k v, (computeLastByType c10Entries).get? k = some (some v) →
      v ∈ c10Entries ∧ v.type = k) ∧
    (∀ e ∈ c10Entries, (∀ t ∈ TYPES, t.key ≠ e.type) →
      objectPrototypeKeys.contains e.type →
      (computeLastByType c10Entries).get? e.type = none)) :=
  ⟨by decide, claim_C10_lastByType_keys c10Entries (by decide)⟩

/-! ## Claims C2 and C3: `computeNextDue` -/

/-- The value `computeNextDue` is expected to record for category `t`
when it does not throw: the due time when there is a truthy last time
and an interval coercing to a positive number, `null` otherwise. -/
def expectedNext (m : ObjMap (Option Entry)) (s : Settings) (t : TypeMeta) : Option String :=
  match (m.get? t.key).join with
  | some e =>
    if e.time ≠ "" ∧ jsNumPos (jsHours s t.key) then addHours e.time (jsHours s t.key)
    else none
  | none => none

/-- The per-category hypothesis under which a `computeNextDue` step
cannot throw: any recorded last event parses and, when the interval is
positive, it is a finite number whose due-time arithmetic stays within
the representable `Date` range. -/
def stepSafe (m : ObjMap (Option Entry)) (s : Settings) (t : TypeMeta) : Prop :=
  ∀ e, m.get? t.key = some (some e) → (jsParseMs e.time).isSome ∧
    (jsNumPos (jsHours s t.key) → ∃ q ms, jsHours s t.key = .fin q ∧
      jsParseMs e.time = some ms ∧
      |(ms : ℚ) + q * 3600 * 1000| ≤ (maxTimeValue : ℚ))

theorem timeClip_fin {q : ℚ} (hr : |q| ≤ (maxTimeValue : ℚ)) :
    timeClip (.fin q) = some (jsTrunc q) := by
  show (if |q| ≤ (maxTimeValue : ℚ) then some (jsTrunc q) else none) = some (jsTrunc q)
  rw [if_pos hr]

theorem toISOStringE_fin {q : ℚ} (hr : |q| ≤ (maxTimeValue : ℚ)) :
    toISOStringE (.fin q) = Except.ok (toISOString (jsTrunc q)) := by
  unfold toISOStringE
  rw [timeClip_fin hr]

theorem addHours_eq {iso : String} {ms : Int} {q : ℚ} (hms : jsParseMs iso = some ms)
    (hr : |(ms : ℚ) + q * 3600 * 1000| ≤ (maxTimeValue : ℚ)) :
    addHours iso (.fin q) =
      some (toISOString (jsTrunc ((ms : ℚ) + q * 3600 * 1000))) := by
  unfold addHours
  rw [hms]
  rw [show dueTimeValue (some ms) (.fin q) = .fin ((ms : ℚ) + q * 3600 * 1000) from rfl]
  rw [toISOStringE_fin hr]

theorem nextDueStep_eq (m : ObjMap (Option Entry)) (s : Settings)
    (res : ObjMap (Option String)) (t : TypeMeta) (hsafe : stepSafe m s t) :
    nextDueStep m s res t = .ok
      (match expectedNext m s t with
       | some due => res.set t.key (some due)
       | none => res) := by
  unfold nextDueStep expectedNext
  cases hj : (m.get? t.key).join with
  | none => rfl
  | some e =>
    show (if e.time ≠ "" ∧ jsNumPos (jsHours s t.key) then
        match toISOStringE (dueTimeValue (jsParseMs e.time) (jsHours s t.key)) with
        | .ok due => Except.ok (res.set t.key (some due))
        | .error err => Except.error err
      else Except.ok res) =
      Except.ok (match (if e.time ≠ "" ∧ jsNumPos (jsHours s t.key) then
          addHours e.time (jsHours s t.key) else none) with
        | some due => res.set t.key (some due)
        | none => res)
    by_cases hc : e.time ≠ "" ∧ jsNumPos (jsHours s t.key)
    · rw [if_pos hc, if_pos hc]
      obtain ⟨hsome, hex⟩ := hsafe e (Option.join_eq_some.mp hj)
      obtain ⟨q, ms, hq, hms, hr⟩ := hex hc.2
      rw [hq, hms]
      rw [show dueTimeValue (some ms) (.fin q) = .fin ((ms : ℚ) + q * 3600 * 1000) from rfl]
      rw [toISOStringE_fin hr, addHours_eq hms hr]
    · rw [if_neg hc, if_neg hc]

theorem foldlM_nextDue (m : ObjMap (Option Entry)) (s : Settings) :
    ∀ (l : List TypeMeta) (res : ObjMap (Option String)),
    (l.map TypeMeta.key).Nodup →
    (∀ t ∈ l, res.get? t.key = some none) →
    (∀ t ∈ l, stepSafe m s t) →
    ∃ out, l.foldlM (nextDueStep m s) res = .ok out ∧
      (∀ t ∈ l, out.get? t.key = some (expectedNext m s t)) ∧
      (∀ k, k ∉ l.map TypeMeta.key → out.get? k = res.get? k) := by
  intro l
  induction l with
  | nil => exact fun res _ _ _ => ⟨res, rfl, by simp, fun k _ => rfl⟩
  | cons t l ih =>
    intro res hnd hinit hsafe
    rw [List.map_cons, List.nodup_cons] at hnd
    have hstep := nextDueStep_eq m s res t (hsafe t (by simp))
    set res' : ObjMap (Option String) :=
      (match expectedNext m s t with
       | some due => res.set t.key (some due)
       | none => res) with hres'
    have hkeyt : t.key ∉ l.map TypeMeta.key := hnd.1
    have hres't : res'.get? t.key = some (expectedNext m s t) := by
      rw [hres']
      cases hexp : expectedNext m s t with
      | none => simpa using hinit t (by simp)
      | some due => simp [ObjMap.get?_set_self]
    have hres'other : ∀ k, k ≠ t.key → res'.get? k = res.get? k := by
      intro k hk
      rw [hres']
      cases hexp : expectedNext m s t with
      | none => rfl
      | some due => simp [ObjMap.get?_set_ne _ _ _ _ (fun h => hk h.symm)]
    obtain ⟨out, hout, hmem, hrest⟩ := ih res' hnd.2
      (fun t' ht' => by
        rw [hres'other t'.key (fun h => hkeyt (h ▸ List.mem_map_of_mem _ ht'))]
        exact hinit t' (by simp [ht']))
      (fun t' ht' => hsafe t' (by simp [ht']))
    refine ⟨out, ?_, ?_, ?_⟩
    · rw [List.foldlM_cons, hstep]
      simpa using hout
    · intro t' ht'
      rcases List.mem_cons.mp ht' with rfl | ht'
      · rw [hrest t'.key hkeyt, hres't]
      · exact hmem t' ht'
    · intro k hk
      have hk1 : k ≠ t.key := by
        intro h; exact hk (by simp [h])
      have hk2 : k ∉ l.map TypeMeta.key := by
        intro h; exact hk (by simp [h])
      rw [hrest k hk2, hres'other k hk1]

theorem ObjMap.get?_mem {α : Type} {m : ObjMap α} {k : String} {v : α}
    (h : m.get? k = some v) : (k, v) ∈ m := by
  unfold ObjMap.get? at h
  cases hf : List.find? (fun p => p.1 == k) m with
  | none => rw [hf] at h; cases h
  | some p =>
    rw [hf] at h
    injection h with h
    have hk : p.1 = k := by simpa using List.find?_some hf
    have hmem := List.mem_of_find?_eq_some hf
    have : p = (k, v) := by
      cases p
      simp only at hk h
      rw [hk, h]
    rw [← this]
    exact hmem

/-- Boolean safety condition on one binding of a last-by-category map:
the recorded event's timestamp parses and, when the category's
interval coerces to a positive number, that number is finite with
due-time arithmetic in `Date` range (an interval coercing to
`Infinity` is never safe — the code throws on it). -/
def lastSafe (s : Settings) (p : String × Option Entry) : Bool :=
  match p.2 with
  | none => true
  | some e =>
    (jsParseMs e.time).isSome &&
    (match jsHours s p.1 with
     | .fin q => !(decide (0 < q)) ||
         decide (|(((jsParseMs e.time).getD 0 : Int) : ℚ) + q * 3600 * 1000| ≤
           (maxTimeValue : ℚ))
     | .posInf => false
     | .negInf => true
     | .nan => true)

theorem stepSafe_of_lastSafe (m : ObjMap (Option Entry)) (s : Settings) (t : TypeMeta)
    (h : ∀ p ∈ m, lastSafe s p = true) : stepSafe m s t := by
  intro e hget
  have hp := h _ (ObjMap.get?_mem hget)
  unfold lastSafe at hp
  simp only [Bool.and_eq_true] at hp
  refine ⟨hp.1, ?_⟩
  intro hpos
  obtain ⟨ms, hms⟩ := Option.isSome_iff_exists.mp hp.1
  have hp2 := hp.2
  cases hhk : jsHours s t.key with
  | fin q =>
    rw [hhk] at hp2
    simp only [Bool.or_eq_true, Bool.not_eq_true', decide_eq_false_iff_not,
      decide_eq_true_eq] at hp2
    rcases hp2 with hneg | hbound
    · rw [hhk] at hpos
      exact absurd (by simpa [jsNumPos] using hpos) hneg
    · rw [hms, Option.getD_some] at hbound
      exact ⟨q, ms, rfl, hms, hbound⟩
  | posInf =>
    rw [hhk] at hp2
    cases hp2
  | negInf =>
    rw [hhk] at hpos
    exact absurd hpos (by simp [jsNumPos])
  | nan =>
    rw [hhk] at hpos
    exact absurd hpos (by simp [jsNumPos])

/-- C3 counterexample: a last-by-category map holding a `leche` record
with an unparseable timestamp, together with a positive `leche`
interval, makes `computeNextDue` throw instead of returning a due time
or "none". -/
theorem claim_C3_counterexample :
    computeNextDue [("leche", some (⟨"z1", "leche", "garbage", none, none⟩ : Entry))]
      DEFAULT_SETTINGS = Except.error "RangeError: Invalid time value" := by decide

/-- C3 (amended): provided every recorded last event's timestamp
parses and positive intervals are finite with in-range due times,
`computeNextDue` returns without throwing and for each fixed category
yields `addHours(last, hours)` exactly when a last event exists and
`Number(interval || 0)` is strictly greater than zero; it yields
"none" when the category has no last event, or when the coerced
interval is not positive (negative, zero, `-Infinity` or `NaN` — so a
negative or non-numeric configured interval acts as
reminders-disabled rather than a failure).  With an unparseable stored
last timestamp, or an interval coercing to `Infinity`, and the guard
otherwise passing, `computeNextDue` instead throws a `RangeError`. -/
theorem claim_C3_computeNextDue (m : ObjMap (Option Entry)) (s : Settings)
    (hs : ∀ p ∈ m, lastSafe s p = true) :
    ∃ out, computeNextDue m s = Except.ok out ∧
      ∀ t ∈ TYPES,
        (∀ e, m.get? t.key = some (some e) → jsNumPos (jsHours s t.key) = true →
          out.get? t.key = some (addHours e.time (jsHours s t.key)) ∧
          (addHours e.time (jsHours s t.key)).isSome) ∧
        ((m.get? t.key = some none ∨ m.get? t.key = none) → out.get? t.key = some none) ∧
        (∀ e, m.get? t.key = some (some e) → jsNumPos (jsHours s t.key) = false →
          out.get? t.key = some none) := by
  obtain ⟨out, hout, hmem, -⟩ := foldlM_nextDue m s TYPES (TYPES.map (fun t => (t.key, none)))
    (by decide) (by decide) (fun t _ => stepSafe_of_lastSafe m s t hs)
  refine ⟨out, hout, ?_⟩
  intro t ht
  have hval := hmem t ht
  refine ⟨?_, ?_, ?_⟩
  · intro e hget hpos
    have hsafe := stepSafe_of_lastSafe m s t hs e hget
    obtain ⟨q, ms, hq, hms, hr⟩ := hsafe.2 hpos
    have hne : e.time ≠ "" := by
      intro h0
      rw [h0, show jsParseMs "" = none from by decide] at hms
      cases hms
    have hexp : expectedNext m s t = addHours e.time (jsHours s t.key) := by
      unfold expectedNext
      rw [Option.join_eq_some.mpr hget]
      exact if_pos ⟨hne, hpos⟩
    rw [hval, hexp]
    refine ⟨rfl, ?_⟩
    rw [hq, addHours_eq hms hr]
    rfl
  · intro hget
    have hexp : expectedNext m s t = none := by
      unfold expectedNext
      rcases hget with h | h
      · rw [show (m.get? t.key).join = none by rw [h]; rfl]
      · rw [show (m.get? t.key).join = none by rw [h]; rfl]
    rw [hval, hexp]
  · intro e hget hnpos
    have hexp : expectedNext m s t = none := by
      unfold expectedNext
      rw [Option.join_eq_some.mpr hget]
      exact if_neg (fun hc => by rw [hnpos] at hc; exact absurd hc.2 (by simp))
    rw [hval, hexp]

def c3Map : ObjMap (Option Entry) :=
  [("leche", some ⟨"a2", "leche", "2024-01-01T11:00:00.000Z", none, none⟩),
   ("simeticona", some ⟨"b1", "simeticona", "2024-01-01T03:00:00.000Z", none, none⟩),
   ("vitamina", some ⟨"c1", "vitamina", "2024-01-01T01:00:00.000Z", none, none⟩),
   ("panal", some ⟨"d1", "panal", "2024-01-01T09:00:00.000Z", none, none⟩)]

def c3Settings : Settings :=
  { intervals := [("leche", .vNum (.fin 3)), ("simeticona", .vNum (.fin (-5))),
                  ("vitamina", .vStr "abc"), ("panal", .vStr "0.5")],
    units := [], babyName := "" }

theorem claim_C3_witness :
    ((∀ p ∈ c3Map, lastSafe c3Settings p = true) ∧
     jsStringToNumber "0.5" = .fin (mkRat 1 2) ∧
     jsStringToNumber "5e3" = .fin 5000 ∧
     jsStringToNumber "0x10" = .fin 16 ∧
     jsStringToNumber "Infinity" = .posInf ∧
     jsStringToNumber "abc" = .nan) ∧
    (∃ out, computeNextDue c3Map c3Settings = Except.ok out ∧
      ∀ t ∈ TYPES,
        (∀ e, c3Map.get? t.key = some (some e) →
          jsNumPos (jsHours c3Settings t.key) = true →
          out.get? t.key = some (addHours e.time (jsHours c3Settings t.key)) ∧
          (addHours e.time (jsHours c3Settings t.key)).isSome) ∧
        ((c3Map.get? t.key = some none ∨ c3Map.get? t.key = none) →
          out.get? t.key = some none) ∧
        (∀ e, c3Map.get? t.key = some (some e) →
          jsNumPos (jsHours c3Settings t.key) = false →
          out.get? t.key = some none)) :=
  ⟨⟨by decide, by decide, by decide, by decide, by decide, by decide⟩,
    claim_C3_computeNextDue c3Map c3Settings (by decide)⟩

/-- C2 counterexample: a `leche` record with unparseable timestamp
placed before a valid, strictly more recent `leche` record is **not**
excluded — the `NaN` comparison makes it tie, the stable sort keeps it
first, `computeLastByType` selects it — and the subsequent
`computeNextDue` throws, so aggregation does not complete. -/
theorem claim_C2_counterexample :
    (computeLastByType
        [⟨"z1", "leche", "garbage", none, none⟩,
         ⟨"z2", "leche", "2024-01-01T11:00:00.000Z", none, none⟩]).get? "leche" =
      some (some ⟨"z1", "leche", "garbage", none, none⟩) ∧
    computeNextDue
      (computeLastByType
        [⟨"z1", "leche", "garbage", none, none⟩,
         ⟨"z2", "leche", "2024-01-01T11:00:00.000Z", none, none⟩])
      DEFAULT_SETTINGS = Except.error "RangeError: Invalid time value" :=
  ⟨by decide, by decide⟩

/-- Per-event safety for the aggregation pipeline: when the event's
own category has an interval coercing to a positive number, that
number is finite and the due-time arithmetic from the event's
timestamp stays in `Date` range. -/
def entryDueSafe (s : Settings) (e : Entry) : Bool :=
  match jsHours s e.type with
  | .fin q => !(decide (0 < q)) ||
      decide (|(((jsParseMs e.time).getD 0 : Int) : ℚ) + q * 3600 * 1000| ≤
        (maxTimeValue : ℚ))
  | .posInf => false
  | .negInf => true
  | .nan => true

/-- C2 (amended): the pipeline
`computeNextDue (computeLastByType entries) settings` completes
without throwing for logs whose timestamps all parse, provided every
positive configured interval is finite with due-time arithmetic in
`Date` range; malformed timestamps are *not* excluded and can make it
throw, as `claim_C2_counterexample` shows. -/
theorem claim_C2_aggregation_ok (entries : List Entry) (s : Settings)
    (hp : ∀ e ∈ entries, (jsParseMs e.time).isSome)
    (hr : ∀ e ∈ entries, entryDueSafe s e = true) :
    ∃ out, computeNextDue (computeLastByType entries) s = Except.ok out := by
  have hsafe : ∀ t ∈ TYPES, stepSafe (computeLastByType entries) s t := by
    intro t ht
    intro e hget
    rw [computeLastByType_fixed entries t ht] at hget
    injection hget with hfound
    have hmem : e ∈ entries :=
      (jsSortByTimeDesc_perm entries).mem_iff.mp (List.mem_of_find?_eq_some hfound)
    have htype : e.type = t.key := by simpa using List.find?_some hfound
    refine ⟨hp e hmem, ?_⟩
    intro hpos
    obtain ⟨ms, hms⟩ := Option.isSome_iff_exists.mp (hp e hmem)
    have hsf := hr e hmem
    unfold entryDueSafe at hsf
    rw [htype] at hsf
    cases hhk : jsHours s t.key with
    | fin q =>
      rw [hhk] at hsf
      simp only [Bool.or_eq_true, Bool.not_eq_true', decide_eq_false_iff_not,
        decide_eq_true_eq] at hsf
      rcases hsf with hneg | hbound
      · rw [hhk] at hpos
        exact absurd (by simpa [jsNumPos] using hpos) hneg
      · rw [hms, Option.getD_some] at hbound
        exact ⟨q, ms, rfl, hms, hbound⟩
    | posInf =>
      rw [hhk] at hsf
      cases hsf
    | negInf =>
      rw [hhk] at hpos
      exact absurd hpos (by simp [jsNumPos])
    | nan =>
      rw [hhk] at hpos
      exact absurd hpos (by simp [jsNumPos])
  obtain ⟨out, hout, -, -⟩ := foldlM_nextDue (computeLastByType entries) s TYPES
    (TYPES.map (fun t => (t.key, none))) (by decide) (by decide) hsafe
  exact ⟨out, hout⟩

def c2Entries : List Entry :=
  [⟨"a1", "leche", "2024-01-01T10:00:00.000Z", some "120", none⟩,
   ⟨"a2", "leche", "2024-01-01T11:00:00.000Z", none, none⟩,
   ⟨"b1", "simeticona", "2024-01-01T03:00:00.000Z", none, none⟩]

theorem claim_C2_witness :
    ((∀ e ∈ c2Entries, (jsParseMs e.time).isSome) ∧
      (∀ e ∈ c2Entries, entryDueSafe DEFAULT_SETTINGS e = true)) ∧
    ∃ out, computeNextDue (computeLastByType c2Entries) DEFAULT_SETTINGS = Except.ok out :=
  ⟨⟨by decide, by decide⟩,
    claim_C2_aggregation_ok c2Entries DEFAULT_SETTINGS (by decide) (by decide)⟩

/-! ## Claim C5: the import merge -/

/-- C5: the merge discards imported records whose id already exists
(existing records remain untouched), appends the surviving imported
records, and hands back the collection re-sorted by timestamp
descending (stated as: the result is a permutation of
`prev ++ filtered rows`, every existing record survives unchanged, a
duplicate-id import appears in the result only if it was already
present, and — for parseable timestamps — the result is pairwise
descending). -/
theorem claim_C5_mergeImport (prev rows : List Entry) :
    List.Perm (mergeImport prev rows)
      (prev ++ rows.filter (fun r => !(prev.map Entry.id).contains r.id)) ∧
    (∀ p ∈ prev, p ∈ mergeImport prev rows) ∧
    (∀ r ∈ rows, r.id ∈ prev.map Entry.id →
      (r ∈ mergeImport prev rows ↔ r ∈ prev)) ∧
    ((∀ e ∈ prev ++ rows, (jsParseMs e.time).isSome) →
      (mergeImport prev rows).Pairwise (fun a b => msKey b ≤ msKey a)) := by
  have hperm : List.Perm (mergeImport prev rows)
      (prev ++ rows.filter (fun r => !(prev.map Entry.id).contains r.id)) :=
    jsSortByTimeDesc_perm _
  refine ⟨hperm, ?_, ?_, ?_⟩
  · intro p hp
    exact hperm.mem_iff.mpr (List.mem_append.mpr (Or.inl hp))
  · intro r hr hdup
    constructor
    · intro hmem
      rcases List.mem_append.mp (hperm.mem_iff.mp hmem) with h | h
      · exact h
      · have := List.of_mem_filter h
        have hnot : r.id ∉ prev.map Entry.id := by simpa using this
        exact absurd hdup hnot
    · intro hmem
      exact hperm.mem_iff.mpr (List.mem_append.mpr (Or.inl hmem))
  · intro hp
    apply jsSortByTimeDesc_sorted
    intro e he
    rcases List.mem_append.mp he with h | h
    · exact hp e (List.mem_append.mpr (Or.inl h))
    · exact hp e (List.mem_append.mpr (Or.inr (List.mem_of_mem_filter h)))

def c5Prev : List Entry :=
  [⟨"a2", "leche", "2024-01-01T11:00:00.000Z", none, none⟩]

def c5Rows : List Entry :=
  [⟨"a2", "leche", "2030-01-01T00:00:00.000Z", some "999", some "overwrite attempt"⟩,
   ⟨"a1", "leche", "2024-01-01T10:00:00.000Z", some "120", none⟩]

theorem claim_C5_witness :
    (List.Perm (mergeImport c5Prev c5Rows)
      (c5Prev ++ c5Rows.filter (fun r => !(c5Prev.map Entry.id).contains r.id)) ∧
    (∀ p ∈ c5Prev, p ∈ mergeImport c5Prev c5Rows) ∧
    (∀ r ∈ c5Rows, r.id ∈ c5Prev.map Entry.id →
      (r ∈ mergeImport c5Prev c5Rows ↔ r ∈ c5Prev)) ∧
    ((∀ e ∈ c5Prev ++ c5Rows, (jsParseMs e.time).isSome) →
      (mergeImport c5Prev c5Rows).Pairwise (fun a b => msKey b ≤ msKey a))) ∧
    mergeImport c5Prev c5Rows =
      [⟨"a2", "leche", "2024-01-01T11:00:00.000Z", none, none⟩,
       ⟨"a1", "leche", "2024-01-01T10:00:00.000Z", some "120", none⟩] :=
  ⟨claim_C5_mergeImport c5Prev c5Rows, by decide⟩

/-! ## Claims C7 and C9: the countdown formatter -/

/-- The `HH:MM:SS` rendering of a whole-second count, exactly as the
tail of `diffToCountdown` produces it. -/
def fmtHMS (sec : Nat) : String :=
  pad (sec / 3600) ++ ":" ++ pad (sec % 3600 / 60) ++ ":" ++ pad (sec % 60)

theorem natDigits_mem {fuel n : Nat} {c : Char} (h : c ∈ natDigits fuel n) :
    ∃ d, d < 10 ∧ c = digitChar d := by
  induction fuel generalizing n with
  | zero => cases h
  | succ fuel ih =>
    unfold natDigits at h
    by_cases hn : n < 10
    · rw [if_pos hn] at h
      rcases List.mem_singleton.mp h with rfl
      exact ⟨n, hn, rfl⟩
    · rw [if_neg hn] at h
      rcases List.mem_append.mp h with h | h
      · exact ih h
      · rcases List.mem_singleton.mp h with rfl
        exact ⟨n % 10, Nat.mod_lt _ (by omega), rfl⟩

theorem pad_mem {n : Nat} {c : Char} (h : c ∈ (pad n).data) :
    ∃ d, d < 10 ∧ c = digitChar d := by
  unfold pad jsNatToString at h
  by_cases hl : (⟨natDigits (n + 1) n⟩ : String).length < 2
  · rw [if_pos hl] at h
    rcases List.mem_append.mp h with h | h
    · rcases List.eq_of_mem_replicate h with rfl
      exact ⟨0, by omega, rfl⟩
    · exact natDigits_mem h
  · rw [if_neg hl] at h
    exact natDigits_mem h

theorem fmtHMS_mem {sec : Nat} {c : Char} (h : c ∈ (fmtHMS sec).data) :
    c = ':' ∨ ∃ d, d < 10 ∧ c = digitChar d := by
  unfold fmtHMS at h
  simp only [String.data_append] at h
  rcases List.mem_append.mp h with h | h
  · rcases List.mem_append.mp h with h | h
    · rcases List.mem_append.mp h with h | h
      · rcases List.mem_append.mp h with h | h
        · exact Or.inr (pad_mem h)
        · exact Or.inl (List.mem_singleton.mp h)
      · exact Or.inr (pad_mem h)
    · exact Or.inl (List.mem_singleton.mp h)
  · exact Or.inr (pad_mem h)

theorem fmtHMS_ne_ahora (sec : Nat) : fmtHMS sec ≠ "¡Ahora!" := by
  intro h
  have hmem : '¡' ∈ (fmtHMS sec).data := by rw [h]; decide
  rcases fmtHMS_mem hmem with h' | ⟨d, hd, h'⟩
  · exact absurd h' (by decide)
  · have : ('¡').toNat = (digitChar d).toNat := by rw [h']
    unfold digitChar at this
    interval_cases d <;> simp_all

theorem natDigits_single {m : Nat} (hm : m < 10) :
    ∀ fuel, 1 ≤ fuel → natDigits fuel m = [digitChar m] := by
  intro fuel hf
  match fuel, hf with
  | f + 1, _ =>
    unfold natDigits
    rw [if_pos hm]

theorem natDigits_step (fuel n : Nat) (h : ¬ n < 10) :
    natDigits (fuel + 1) n = natDigits fuel (n / 10) ++ [digitChar (n % 10)] := by
  conv_lhs => rw [natDigits]
  rw [if_neg h]

theorem pad_length {n : Nat} (h : n < 100) : (pad n).length = 2 := by
  unfold pad jsNatToString
  by_cases h10 : n < 10
  · rw [natDigits_single h10 (n + 1) (by omega)]
    simp [String.length]
  · rw [natDigits_step n n h10]
    rw [natDigits_single (show n / 10 < 10 by omega) n (by omega)]
    simp [String.length]

theorem diffToCountdown_pos {u : String} {t now : Int}
    (ht : jsParseMs u = some t) (hpos : 0 < t - now) :
    diffToCountdown (some u) now = fmtHMS ((t - now).toNat / 1000) := by
  have hu : u ≠ "" := by
    intro h0
    rw [h0, show jsParseMs "" = none from by decide] at ht
    cases ht
  simp only [diffToCountdown]
  rw [if_neg hu, ht]
  show (if t - now ≤ 0 then "¡Ahora!"
      else pad ((t - now).toNat / 1000 / 3600) ++ ":" ++
        pad ((t - now).toNat / 1000 % 3600 / 60) ++ ":" ++ pad ((t - now).toNat / 1000 % 60)) = fmtHMS ((t - now).toNat / 1000)
  rw [if_neg (by omega : ¬ (t - now ≤ 0))]
  rfl

/-- C7: the countdown formatter yields the zero-padded `HH:MM:SS`
rendering of the truncated whole-second difference when `target - now`
is positive (hours uncapped — a 30-hour wait renders `30:00:00`), the
"due now" sentinel `¡Ahora!` when the difference is ≤ 0, and the
unknown sentinel `--:--:--` when the target is absent or
unparseable. -/
theorem claim_C7_diffToCountdown :
    (∀ now, diffToCountdown none now = "--:--:--") ∧
    (∀ u now, jsParseMs u = none → diffToCountdown (some u) now = "--:--:--") ∧
    (∀ u t now, jsParseMs u = some t → t - now ≤ 0 →
      diffToCountdown (some u) now = "¡Ahora!") ∧
    (∀ u t now, jsParseMs u = some t → 0 < t - now →
      diffToCountdown (some u) now = fmtHMS ((t - now).toNat / 1000) ∧
      ∃ h m s, h * 3600 + m * 60 + s = (t - now).toNat / 1000 ∧ m < 60 ∧ s < 60 ∧
        diffToCountdown (some u) now = pad h ++ ":" ++ pad m ++ ":" ++ pad s) ∧
    diffToCountdown (some "1970-01-02T06:00:00.000Z") 0 = "30:00:00" ∧
    (∀ n, n < 100 → (pad n).length = 2) := by
  refine ⟨fun now => rfl, ?_, ?_, ?_, by decide, fun n hn => pad_length hn⟩
  · intro u now hu
    simp only [diffToCountdown]
    by_cases h0 : u = ""
    · rw [if_pos h0]
    · rw [if_neg h0, hu]
  · intro u t now ht hle
    have hu : u ≠ "" := by
      intro h0
      rw [h0, show jsParseMs "" = none from by decide] at ht
      cases ht
    simp only [diffToCountdown]
    rw [if_neg hu, ht]
    show (if t - now ≤ 0 then "¡Ahora!"
      else pad ((t - now).toNat / 1000 / 3600) ++ ":" ++
        pad ((t - now).toNat / 1000 % 3600 / 60) ++ ":" ++ pad ((t - now).toNat / 1000 % 60)) = "¡Ahora!"
    rw [if_pos hle]
  · intro u t now ht hpos
    refine ⟨diffToCountdown_pos ht hpos, ?_⟩
    refine ⟨(t - now).toNat / 1000 / 3600, (t - now).toNat / 1000 % 3600 / 60,
      (t - now).toNat / 1000 % 60, by omega, by omega, by omega, ?_⟩
    rw [diffToCountdown_pos ht hpos]
    rfl

theorem claim_C7_witness :
    (jsParseMs "2024-01-01T11:00:00.000Z" = some 1704106800000 ∧
     (0 : Int) < 1704106800000 - 1704101400000) ∧
    (diffToCountdown (some "2024-01-01T11:00:00.000Z") 1704101400000 =
      fmtHMS ((1704106800000 - 1704101400000 : Int).toNat / 1000) ∧
     ∃ h m s, h * 3600 + m * 60 + s = ((1704106800000 - 1704101400000 : Int)).toNat / 1000 ∧
       m < 60 ∧ s < 60 ∧
       diffToCountdown (some "2024-01-01T11:00:00.000Z") 1704101400000 =
         pad h ++ ":" ++ pad m ++ ":" ++ pad s) :=
  ⟨⟨by decide, by decide⟩,
    (claim_C7_diffToCountdown.2.2.2.1) "2024-01-01T11:00:00.000Z" 1704106800000
      1704101400000 (by decide) (by decide)⟩

/-- The displayed whole-second magnitude of the countdown. -/
def countdownSecs (t now : Int) : Nat := (t - now).toNat / 1000

/-- C9: for a fixed parseable target, the displayed countdown
magnitude is monotonically non-increasing as `now` advances, and the
"due now" sentinel appears exactly when `target - now ≤ 0`. -/
theorem claim_C9_countdown_monotone (u : String) (t : Int) (ht : jsParseMs u = some t) :
    (∀ n₁ n₂ : Int, n₁ ≤ n₂ → countdownSecs t n₂ ≤ countdownSecs t n₁) ∧
    (∀ now, 0 < t - now → diffToCountdown (some u) now = fmtHMS (countdownSecs t now)) ∧
    (∀ now, diffToCountdown (some u) now = "¡Ahora!" ↔ t - now ≤ 0) := by
  refine ⟨?_, ?_, ?_⟩
  · intro n₁ n₂ h
    unfold countdownSecs
    exact Nat.div_le_div_right (by omega)
  · intro now hpos
    exact diffToCountdown_pos ht hpos
  · intro now
    constructor
    · intro h
      by_contra hgt
      rw [diffToCountdown_pos ht (by omega)] at h
      exact fmtHMS_ne_ahora _ h
    · intro hle
      have hu : u ≠ "" := by
        intro h0
        rw [h0, show jsParseMs "" = none from by decide] at ht
        cases ht
      simp only [diffToCountdown]
      rw [if_neg hu, ht]
      show (if t - now ≤ 0 then "¡Ahora!"
      else pad ((t - now).toNat / 1000 / 3600) ++ ":" ++
        pad ((t - now).toNat / 1000 % 3600 / 60) ++ ":" ++ pad ((t - now).toNat / 1000 % 60)) = "¡Ahora!"
      rw [if_pos hle]

theorem claim_C9_witness :
    jsParseMs "2024-01-01T11:00:00.000Z" = some 1704106800000 ∧
    ((∀ n₁ n₂ : Int, n₁ ≤ n₂ →
        countdownSecs 1704106800000 n₂ ≤ countdownSecs 1704106800000 n₁) ∧
     (∀ now, 0 < 1704106800000 - now →
        diffToCountdown (some "2024-01-01T11:00:00.000Z") now =
          fmtHMS (countdownSecs 1704106800000 now)) ∧
     (∀ now, diffToCountdown (some "2024-01-01T11:00:00.000Z") now = "¡Ahora!" ↔
        1704106800000 - now ≤ 0)) :=
  ⟨by decide, claim_C9_countdown_monotone "2024-01-01T11:00:00.000Z" 1704106800000 (by decide)⟩

/-! ## Claim C6: the quote-aware scanner -/

theorem scanRow_other (c : Char) (rest cur : List Char) (inQ : Bool)
    (h1 : c ≠ '"') (h2 : c = ',' → inQ = true) :
    scanRow (c :: rest) cur inQ = scanRow rest (c :: cur) inQ := by
  match inQ with
  | true =>
    match rest with
    | [] => simp [scanRow, h1]
    | r :: rs => simp [scanRow, h1]
  | false =>
    have hc : c ≠ ',' := fun h => by simpa using h2 h
    simp [scanRow, h1, hc]

theorem scanRow_close (rest cur : List Char) (h : ∀ r, rest ≠ '"' :: r) :
    scanRow ('"' :: rest) cur true = scanRow rest cur false := by
  match rest with
  | [] => simp [scanRow]
  | r :: rs =>
    have : r ≠ '"' := fun hr => h rs (by rw [hr])
    simp [scanRow, this]

/-- C6: the data-row scanner is quote-aware — outside quotes a comma
ends the field; inside quotes a doubled quote contributes one literal
quote, any other quote leaves quoted mode, and commas and newline
characters are ordinary field content; concretely, a CSV field
`"He said ""hi"""` decodes to `He said "hi"`. -/
theorem claim_C6_quote_scanner :
    (∀ rest cur, scanRow ('"' :: '"' :: rest) cur true = scanRow rest ('"' :: cur) true) ∧
    (∀ rest cur, (∀ r, rest ≠ '"' :: r) →
      scanRow ('"' :: rest) cur true = scanRow rest cur false) ∧
    (∀ rest cur, scanRow (',' :: rest) cur true = scanRow rest (',' :: cur) true) ∧
    (∀ rest cur, scanRow ('\n' :: rest) cur true = scanRow rest ('\n' :: cur) true) ∧
    (∀ rest cur, scanRow (',' :: rest) cur false = ⟨cur.reverse⟩ :: scanRow rest [] false) ∧
    fromCSV "id,tipo,hora,cantidad,notas\n\"a1\",\"leche\",\"t\",\"\",\"He said \"\"hi\"\"\"" =
      Except.ok [⟨"a1", "leche", "t", none, some "He said \"hi\""⟩] := by
  refine ⟨?_, scanRow_close, ?_, ?_, ?_, by decide⟩
  · intro rest cur
    simp [scanRow]
  · intro rest cur
    exact scanRow_other ',' rest cur true (by decide) (fun _ => rfl)
  · intro rest cur
    exact scanRow_other '\n' rest cur true (by decide) (by decide)
  · intro rest cur
    simp [scanRow]

theorem claim_C6_witness :
    (∀ r, (['h', 'i'] : List Char) ≠ '"' :: r) ∧
    scanRow ('"' :: ['h', 'i']) ['x'] true = scanRow ['h', 'i'] ['x'] false :=
  have hne : ∀ r, (['h', 'i'] : List Char) ≠ '"' :: r := fun r h => by
    injection h with h1 _
    exact absurd h1 (by decide)
  ⟨hne, claim_C6_quote_scanner.2.1 ['h', 'i'] ['x'] hne⟩

/-! ## Round-trip lemmas for the scanner -/

theorem joinSep_cons_cons (sep : List Char) (x y : List Char) (ys : List (List Char)) :
    joinSep sep (x :: y :: ys) = x ++ sep ++ joinSep sep (y :: ys) := rfl

theorem string_mk_data (s : String) : (⟨s.data⟩ : String) = s := rfl

theorem quotedLine_single (f : String) : quotedLine [f] = quoteField f := rfl

theorem quotedLine_cons_cons (f g : String) (gs : List String) :
    quotedLine (f :: g :: gs) = quoteField f ++ [','] ++ quotedLine (g :: gs) := rfl

theorem scanRow_esc (f : List Char) :
    ∀ rest cur, scanRow (escChars f ++ rest) cur true = scanRow rest (f.reverse ++ cur) true := by
  induction f with
  | nil => intro rest cur; simp [escChars]
  | cons c cs ih =>
    intro rest cur
    by_cases hc : c = '"'
    · subst hc
      rw [show escChars ('"' :: cs) = '"' :: '"' :: escChars cs by simp [escChars]]
      rw [List.cons_append, List.cons_append]
      rw [show scanRow ('"' :: '"' :: (escChars cs ++ rest)) cur true =
          scanRow (escChars cs ++ rest) ('"' :: cur) true by simp [scanRow]]
      rw [ih rest ('"' :: cur)]
      simp
    · rw [show escChars (c :: cs) = c :: escChars cs by simp [escChars, hc]]
      rw [List.cons_append]
      rw [scanRow_other c _ _ true hc (fun _ => rfl)]
      rw [ih rest (c :: cur)]
      simp

theorem scanRow_quotedLine : ∀ (vals : List String), vals ≠ [] →
    scanRow (quotedLine vals) [] false = vals := by
  intro vals
  induction vals with
  | nil => intro h; exact absurd rfl h
  | cons f fs ih =>
    intro _
    cases fs with
    | nil =>
      rw [quotedLine_single]
      unfold quoteField
      rw [show scanRow ('"' :: (escChars f.data ++ ['"'])) [] false =
          scanRow (escChars f.data ++ ['"']) [] true by simp [scanRow]]
      rw [scanRow_esc f.data ['"'] []]
      rw [scanRow_close [] _ (by intro r h; cases h)]
      simp [scanRow, string_mk_data]
    | cons g gs =>
      rw [quotedLine_cons_cons]
      rw [show quoteField f ++ [','] ++ quotedLine (g :: gs) =
          '"' :: (escChars f.data ++ ('"' :: ',' :: quotedLine (g :: gs))) by
        unfold quoteField; simp]
      rw [show scanRow ('"' :: (escChars f.data ++ ('"' :: ',' :: quotedLine (g :: gs)))) [] false =
          scanRow (escChars f.data ++ ('"' :: ',' :: quotedLine (g :: gs))) [] true by
        simp [scanRow]]
      rw [scanRow_esc f.data _ []]
      rw [scanRow_close _ _ (by intro r h; injection h with h1 _; exact absurd h1 (by decide))]
      rw [show scanRow (',' :: quotedLine (g :: gs)) (f.data.reverse ++ []) false =
          ⟨(f.data.reverse ++ []).reverse⟩ :: scanRow (quotedLine (g :: gs)) [] false by
        simp [scanRow]]
      rw [ih (by simp)]
      congr 1
      simp

/-! ## Line-splitting lemmas -/

theorem splitLines_nl (rest : List Char) :
    splitLines ('\n' :: rest) = [] :: splitLines rest := by
  simp [splitLines]

theorem splitLines_other (c : Char) (rest : List Char) (h1 : c ≠ '\n') (h2 : c ≠ '\r') :
    splitLines (c :: rest) =
      match splitLines rest with
      | [] => [[c]]
      | l :: ls => (c :: l) :: ls := by
  match rest with
  | [] => simp [splitLines, h1, h2]
  | r :: rs => simp [splitLines, h1, h2]

theorem splitLines_cr (d : Char) (rest : List Char) (hd : d ≠ '\n') :
    splitLines ('\r' :: d :: rest) =
      match splitLines (d :: rest) with
      | [] => [['\r']]
      | l :: ls => ('\r' :: l) :: ls := by
  simp [splitLines, hd]

theorem splitLines_sep : ∀ (l : List Char) (rest : List Char), '\n' ∉ l →
    l.getLast? ≠ some '\r' → splitLines (l ++ '\n' :: rest) = l :: splitLines rest := by
  intro l
  induction l with
  | nil => intro rest _ _; exact splitLines_nl rest
  | cons c l' ih =>
    intro rest hnl hlast
    have hc : c ≠ '\n' := fun h => hnl (by rw [h]; simp)
    by_cases hcr : c = '\r'
    · subst hcr
      cases l' with
      | nil => exact absurd rfl hlast
      | cons d l'' =>
        have hd : d ≠ '\n' := fun h => hnl (by rw [h]; simp)
        rw [List.cons_append, List.cons_append, splitLines_cr d _ hd,
          ← List.cons_append, ih rest (fun h => hnl (by simp [h]))
            (by rwa [List.getLast?_cons_cons] at hlast)]
    · rw [List.cons_append, splitLines_other c _ hc hcr]
      cases l' with
      | nil => rw [show ([] : List Char) ++ '\n' :: rest = '\n' :: rest from rfl,
          splitLines_nl]
      | cons d l'' =>
        rw [ih rest (fun h => hnl (by simp [h]))
          (by rwa [List.getLast?_cons_cons] at hlast)]

theorem splitLines_noNl : ∀ (l : List Char), '\n' ∉ l → splitLines l = [l] := by
  intro l
  induction l with
  | nil => intro _; rfl
  | cons c l' ih =>
    intro hnl
    have hc : c ≠ '\n' := fun h => hnl (by rw [h]; simp)
    have hl' : '\n' ∉ l' := fun h => hnl (by simp [h])
    by_cases hcr : c = '\r'
    · subst hcr
      cases l' with
      | nil => rfl
      | cons d l'' =>
        have hd : d ≠ '\n' := fun h => hl' (by rw [h]; simp)
        rw [splitLines_cr d _ hd, ih hl']
    · rw [splitLines_other c _ hc hcr, ih hl']

theorem splitLines_joinSep : ∀ (lines : List (List Char)), lines ≠ [] →
    (∀ l ∈ lines, '\n' ∉ l ∧ l.getLast? ≠ some '\r') →
    splitLines (joinSep ['\n'] lines) = lines := by
  intro lines
  induction lines with
  | nil => intro h; exact absurd rfl h
  | cons x xs ih =>
    intro _ hcond
    cases xs with
    | nil => exact splitLines_noNl x (hcond x (by simp)).1
    | cons y ys =>
      have hx := hcond x (by simp)
      rw [joinSep_cons_cons]
      rw [show x ++ ['\n'] ++ joinSep ['\n'] (y :: ys) =
          x ++ '\n' :: joinSep ['\n'] (y :: ys) by simp]
      rw [splitLines_sep x _ hx.1 hx.2, ih (by simp) (fun l hl => hcond l (by simp [hl]))]

/-! ## Header-splitting lemmas -/

theorem splitOnComma_noComma : ∀ (l : List Char), ',' ∉ l →
    splitOnComma l = [⟨l⟩] := by
  intro l
  induction l with
  | nil => intro _; rfl
  | cons c l' ih =>
    intro h
    have hc : c ≠ ',' := fun hh => h (by rw [hh]; simp)
    rw [show splitOnComma (c :: l') =
        (match splitOnComma l' with
         | [] => [⟨[c]⟩]
         | s :: ss => ⟨c :: s.data⟩ :: ss) by simp [splitOnComma, hc]]
    rw [ih (fun hh => h (by simp [hh]))]

theorem splitOnComma_sep : ∀ (l : List Char) (rest : List Char), ',' ∉ l →
    splitOnComma (l ++ ',' :: rest) = ⟨l⟩ :: splitOnComma rest := by
  intro l
  induction l with
  | nil => intro rest _; simp [splitOnComma]
  | cons c l' ih =>
    intro rest h
    have hc : c ≠ ',' := fun hh => h (by rw [hh]; simp)
    rw [List.cons_append]
    rw [show splitOnComma (c :: (l' ++ ',' :: rest)) =
        (match splitOnComma (l' ++ ',' :: rest) with
         | [] => [⟨[c]⟩]
         | s :: ss => ⟨c :: s.data⟩ :: ss) by simp [splitOnComma, hc]]
    rw [ih rest (fun hh => h (by simp [hh]))]

theorem splitOnComma_joinSep : ∀ (names : List String), names ≠ [] →
    (∀ n ∈ names, ',' ∉ n.data) →
    splitOnComma (joinSep [','] (names.map String.data)) = names := by
  intro names
  induction names with
  | nil => intro h; exact absurd rfl h
  | cons n ns ih =>
    intro _ hcond
    cases ns with
    | nil =>
      show splitOnComma n.data = [n]
      rw [splitOnComma_noComma n.data (hcond n (by simp))]
    | cons m ms =>
      rw [show (n :: m :: ms).map String.data =
          n.data :: m.data :: ms.map String.data from rfl]
      rw [joinSep_cons_cons]
      rw [show n.data ++ [','] ++ joinSep [','] (m.data :: ms.map String.data) =
          n.data ++ ',' :: joinSep [','] (m.data :: ms.map String.data) by simp]
      rw [splitOnComma_sep n.data _ (hcond n (by simp))]
      rw [show (m.data :: ms.map String.data) = (m :: ms).map String.data from rfl]
      rw [ih (by simp) (fun x hx => hcond x (by simp [hx]))]

/-! ## Character-membership lemmas for the encoded lines -/

theorem escChars_mem {c : Char} : ∀ {l : List Char}, c ∈ escChars l → c ∈ l ∨ c = '"' := by
  intro l
  induction l with
  | nil => intro h; cases h
  | cons d l' ih =>
    intro h
    unfold escChars at h
    by_cases hd : d = '"'
    · subst hd
      rw [if_pos rfl] at h
      rcases List.mem_cons.mp h with rfl | h
      · exact Or.inr rfl
      · rcases List.mem_cons.mp h with rfl | h
        · exact Or.inr rfl
        · rcases ih h with h' | h'
          · exact Or.inl (List.mem_cons_of_mem _ h')
          · exact Or.inr h'
    · rw [if_neg hd] at h
      rcases List.mem_cons.mp h with rfl | h
      · exact Or.inl (List.mem_cons_self _ _)
      · rcases ih h with h' | h'
        · exact Or.inl (List.mem_cons_of_mem _ h')
        · exact Or.inr h'

theorem joinSep_mem {c : Char} {sep : List Char} :
    ∀ {ls : List (List Char)}, c ∈ joinSep sep ls → c ∈ sep ∨ ∃ l ∈ ls, c ∈ l := by
  intro ls
  induction ls with
  | nil => intro h; cases h
  | cons x xs ih =>
    intro h
    cases xs with
    | nil => exact Or.inr ⟨x, by simp, h⟩
    | cons y ys =>
      rw [joinSep_cons_cons] at h
      rcases List.mem_append.mp h with h | h
      · rcases List.mem_append.mp h with h | h
        · exact Or.inr ⟨x, by simp, h⟩
        · exact Or.inl h
      · rcases ih h with h' | ⟨l, hl, hcl⟩
        · exact Or.inl h'
        · exact Or.inr ⟨l, by simp [hl], hcl⟩

theorem quoteField_mem {c : Char} {s : String} (h : c ∈ quoteField s) :
    c ∈ s.data ∨ c = '"' := by
  unfold quoteField at h
  rcases List.mem_cons.mp h with rfl | h
  · exact Or.inr rfl
  · rcases List.mem_append.mp h with h | h
    · exact escChars_mem h
    · exact Or.inr (List.mem_singleton.mp h)

theorem quotedLine_mem {c : Char} {vals : List String} (h : c ∈ quotedLine vals) :
    c = ',' ∨ c = '"' ∨ ∃ v ∈ vals, c ∈ v.data := by
  rcases joinSep_mem h with h | ⟨l, hl, hcl⟩
  · exact Or.inl (List.mem_singleton.mp h)
  · obtain ⟨v, hv, rfl⟩ := List.mem_map.mp hl
    rcases quoteField_mem hcl with h' | h'
    · exact Or.inr (Or.inr ⟨v, hv, h'⟩)
    · exact Or.inr (Or.inl h')

theorem quotedLine_no_nl {vals : List String} (h : ∀ v ∈ vals, '\n' ∉ v.data) :
    '\n' ∉ quotedLine vals := by
  intro hmem
  rcases quotedLine_mem hmem with h' | h' | ⟨v, hv, hcl⟩
  · exact absurd h' (by decide)
  · exact absurd h' (by decide)
  · exact h v hv hcl

theorem quotedLine_ne_nil {vals : List String} (h : vals ≠ []) : quotedLine vals ≠ [] := by
  cases vals with
  | nil => exact absurd rfl h
  | cons f fs =>
    cases fs with
    | nil => rw [quotedLine_single]; unfold quoteField; simp
    | cons g gs => rw [quotedLine_cons_cons]; unfold quoteField; simp

theorem quotedLine_last {vals : List String} (h : vals ≠ []) :
    (quotedLine vals).getLast? = some '"' := by
  induction vals with
  | nil => exact absurd rfl h
  | cons f fs ih =>
    cases fs with
    | nil =>
      rw [quotedLine_single]
      unfold quoteField
      rw [show '"' :: (escChars f.data ++ ['"']) = ('"' :: escChars f.data) ++ ['"'] by simp]
      exact List.getLast?_concat _
    | cons g gs =>
      rw [quotedLine_cons_cons]
      rw [List.getLast?_append, List.getLast?_append, ih (by simp)]
      rfl

/-! ## Claim C1: CSV round trip -/

/-- The absent/empty-string collapse on the two optional fields. -/
def collapseEntry (r : Entry) : Entry :=
  { r with amount := if r.amount = some "" then none else r.amount,
           notes := if r.notes = some "" then none else r.notes }

theorem parseRow_rowChars (r : Entry) :
    parseRow (lastIdxOf ((splitOnComma headerChars).map jsTrim)) (rowChars r) =
      collapseEntry r := by
  obtain ⟨i, ty, ti, am, no⟩ := r
  unfold parseRow
  rw [show rowChars ⟨i, ty, ti, am, no⟩ = quotedLine (rowFields ⟨i, ty, ti, am, no⟩) from rfl]
  rw [scanRow_quotedLine _ (by simp [rowFields])]
  unfold csvGet rowFields
  rw [show lastIdxOf ((splitOnComma headerChars).map jsTrim) "id" = some 0 from by decide]
  rw [show lastIdxOf ((splitOnComma headerChars).map jsTrim) "tipo" = some 1 from by decide]
  rw [show lastIdxOf ((splitOnComma headerChars).map jsTrim) "hora" = some 2 from by decide]
  rw [show lastIdxOf ((splitOnComma headerChars).map jsTrim) "cantidad" = some 3 from by decide]
  rw [show lastIdxOf ((splitOnComma headerChars).map jsTrim) "notas" = some 4 from by decide]
  unfold collapseEntry
  rcases am with - | a <;> rcases no with - | b <;> simp [Option.getD]

theorem claim_C1_counterexample :
    fromCSV (toCSV [⟨"a1", "leche", "t", none, some "x\ny"⟩]) ≠
      Except.ok ([(⟨"a1", "leche", "t", none, some "x\ny"⟩ : Entry)].map collapseEntry) := by
  decide

/-- C1 (amended): for every record list none of whose encoded field
values contains a line-feed character, decoding the CSV text produced
by encoding yields the same records up to the collapse of
empty-string optional `amount`/`notes` fields to absent.  (A field
containing a line feed breaks the law — `fromCSV` splits on line
boundaries before quote-aware scanning — see
`claim_C1_counterexample`.) -/
theorem claim_C1_roundtrip (rows : List Entry)
    (hnl : ∀ r ∈ rows, ∀ f ∈ rowFields r, '\n' ∉ f.data) :
    fromCSV (toCSV rows) = Except.ok (rows.map collapseEntry) := by
  unfold fromCSV toCSV
  rw [show (⟨joinSep ['\n'] (headerChars :: rows.map rowChars)⟩ : String).data =
      joinSep ['\n'] (headerChars :: rows.map rowChars) from rfl]
  rw [splitLines_joinSep _ (by simp) ?cond]
  case cond =>
    intro l hl
    rcases List.mem_cons.mp hl with rfl | hl
    · exact ⟨by decide, by decide⟩
    · obtain ⟨r, hr, rfl⟩ := List.mem_map.mp hl
      refine ⟨quotedLine_no_nl (hnl r hr), ?_⟩
      rw [show rowChars r = quotedLine (rowFields r) from rfl]
      rw [quotedLine_last (by simp [rowFields])]
      simp
  rw [List.filter_eq_self.mpr ?nonempty]
  case nonempty =>
    intro l hl
    rcases List.mem_cons.mp hl with rfl | hl
    · decide
    · obtain ⟨r, hr, rfl⟩ := List.mem_map.mp hl
      have : quotedLine (rowFields r) ≠ [] := quotedLine_ne_nil (by simp [rowFields])
      simpa using this
  show Except.ok ((rows.map rowChars).map
      (parseRow (lastIdxOf ((splitOnComma headerChars).map jsTrim)))) =
    Except.ok (rows.map collapseEntry)
  rw [List.map_map]
  congr 1
  exact List.map_congr_left (fun r _ => parseRow_rowChars r)

def c1Rows : List Entry :=
  [⟨"a1", "leche", "2024-01-01T10:00:00.000Z", some "120", none⟩,
   ⟨"a2", "leche", "2024-01-01T11:00:00.000Z", some "", some "He said \"hi\", twice"⟩,
   ⟨"b1", "panal", "2024-01-01T03:00:00.000Z", none, some "Mojado"⟩]

theorem claim_C1_witness :
    (∀ r ∈ c1Rows, ∀ f ∈ rowFields r, '\n' ∉ f.data) ∧
    fromCSV (toCSV c1Rows) = Except.ok (c1Rows.map collapseEntry) :=
  ⟨by decide, claim_C1_roundtrip c1Rows (by decide)⟩

/-! ## Claim C8: header-driven decoding -/

theorem splitLines_crlf : ∀ (l : List Char) (rest : List Char), '\n' ∉ l →
    l.getLast? ≠ some '\r' → splitLines (l ++ '\r' :: '\n' :: rest) = l :: splitLines rest := by
  intro l
  induction l with
  | nil => intro rest _ _; simp [splitLines]
  | cons c l' ih =>
    intro rest hnl hlast
    have hc : c ≠ '\n' := fun h => hnl (by rw [h]; simp)
    by_cases hcr : c = '\r'
    · subst hcr
      cases l' with
      | nil => exact absurd rfl hlast
      | cons d l'' =>
        have hd : d ≠ '\n' := fun h => hnl (by rw [h]; simp)
        rw [List.cons_append, List.cons_append, splitLines_cr d _ hd,
          ← List.cons_append, ih rest (fun h => hnl (by simp [h]))
            (by rwa [List.getLast?_cons_cons] at hlast)]
    · rw [List.cons_append, splitLines_other c _ hc hcr]
      cases l' with
      | nil =>
        rw [show ([] : List Char) ++ '\r' :: '\n' :: rest = '\r' :: '\n' :: rest from rfl]
        rw [show splitLines ('\r' :: '\n' :: rest) = [] :: splitLines rest by simp [splitLines]]
      | cons d l'' =>
        rw [ih rest (fun h => hnl (by simp [h]))
          (by rwa [List.getLast?_cons_cons] at hlast)]

theorem getLast?_mem' {α : Type} {l : List α} (h : l ≠ []) :
    ∃ c, l.getLast? = some c ∧ c ∈ l :=
  ⟨l.getLast h, List.getLast?_eq_getLast l h, List.getLast_mem h⟩

/-- A usable header column name: non-empty, trim-invariant, free of
separators and quotes and line breaks. -/
def cleanName (n : String) : Prop :=
  n ≠ "" ∧ jsTrim n = n ∧ ∀ c ∈ n.data, c ≠ ',' ∧ c ≠ '"' ∧ c ≠ '\n' ∧ c ≠ '\r'

instance (n : String) : Decidable (cleanName n) := by
  unfold cleanName
  infer_instance

/-- A CSV text whose header lists `names` (in any order, possibly a
superset of the five standard columns) and whose single data row
carries `vals`, wrapped in assorted CR-LF / bare-LF line breaks and
empty lines. -/
def csvText (names vals : List String) : String :=
  ⟨'\n' :: (joinSep [','] (names.map String.data) ++
    '\r' :: '\n' :: '\n' :: (quotedLine vals ++ ['\n']))⟩

/-- What a header-driven decoder must extract for column `k`. -/
def hGet (names vals : List String) (k : String) : String :=
  match lastIdxOf names k with
  | some i => (vals.get? i).getD ""
  | none => ""

theorem names_line_ne_nil {names : List String} (hnn : names ≠ [])
    (hclean : ∀ n ∈ names, cleanName n) :
    joinSep [','] (names.map String.data) ≠ [] := by
  cases names with
  | nil => exact absurd rfl hnn
  | cons n ns =>
    cases ns with
    | nil =>
      show n.data ≠ []
      intro h
      exact (hclean n (by simp)).1 (by cases n; simp_all)
    | cons m ms =>
      rw [show (n :: m :: ms).map String.data = n.data :: m.data :: ms.map String.data
        from rfl]
      rw [joinSep_cons_cons]
      simp

/-- C8: decoding splits on CR-or-bare-LF boundaries, discards empty
lines, reads the first non-empty line as the header, builds a
name-to-index map from it (later duplicates win), and therefore
accepts the five columns in any order or as part of a superset; a
missing `cantidad`/`notas` column, or an empty value, decodes to
absent. -/
theorem claim_C8_header_driven (names vals : List String)
    (hclean : ∀ n ∈ names, cleanName n)
    (hvals : ∀ v ∈ vals, '\n' ∉ v.data)
    (hnn : names ≠ []) (hvn : vals ≠ []) :
    fromCSV (csvText names vals) = Except.ok
      [{ id := hGet names vals "id", type := hGet names vals "tipo",
         time := hGet names vals "hora",
         amount := if hGet names vals "cantidad" = "" then none
                   else some (hGet names vals "cantidad"),
         notes := if hGet names vals "notas" = "" then none
                  else some (hGet names vals "notas") }] := by
  have hheader_nl : '\n' ∉ joinSep [','] (names.map String.data) := by
    intro h
    rcases joinSep_mem h with h' | ⟨l, hl, hcl⟩
    · exact absurd (List.mem_singleton.mp h') (by decide)
    · obtain ⟨n, hn, rfl⟩ := List.mem_map.mp hl
      exact ((hclean n hn).2.2 _ hcl).2.2.1 rfl
  have hheader_ne : joinSep [','] (names.map String.data) ≠ [] :=
    names_line_ne_nil hnn hclean
  have hheader_last : (joinSep [','] (names.map String.data)).getLast? ≠ some '\r' := by
    obtain ⟨c, hc, hcm⟩ := getLast?_mem' hheader_ne
    rw [hc]
    intro h
    injection h with h
    subst h
    rcases joinSep_mem hcm with h' | ⟨l, hl, hcl⟩
    · exact absurd (List.mem_singleton.mp h') (by decide)
    · obtain ⟨n, hn, rfl⟩ := List.mem_map.mp hl
      exact ((hclean n hn).2.2 _ hcl).2.2.2 rfl
  unfold fromCSV csvText
  rw [show (⟨'\n' :: (joinSep [','] (names.map String.data) ++
      '\r' :: '\n' :: '\n' :: (quotedLine vals ++ ['\n']))⟩ : String).data =
      '\n' :: (joinSep [','] (names.map String.data) ++
      '\r' :: '\n' :: '\n' :: (quotedLine vals ++ ['\n'])) from rfl]
  rw [splitLines_nl]
  rw [splitLines_crlf _ _ hheader_nl hheader_last]
  rw [splitLines_nl]
  rw [splitLines_sep _ _ (quotedLine_no_nl hvals)
    (by rw [quotedLine_last hvn]; simp)]
  rw [show splitLines [] = [[]] from rfl]
  rw [show List.filter (fun l => l ≠ [])
      ([] :: joinSep [','] (names.map String.data) ::
        [] :: quotedLine vals :: [[]]) =
      [joinSep [','] (names.map String.data), quotedLine vals] by
    simp [List.filter, hheader_ne, quotedLine_ne_nil hvn]]
  show Except.ok [parseRow
      (lastIdxOf ((splitOnComma (joinSep [','] (names.map String.data))).map jsTrim))
      (quotedLine vals)] = _
  rw [splitOnComma_joinSep names hnn
    (fun n hn => fun h => ((hclean n hn).2.2 _ h).1 rfl)]
  rw [List.map_congr_left (fun n hn => (hclean n hn).2.1), List.map_id']
  unfold parseRow
  rw [scanRow_quotedLine vals hvn]
  rfl

def c8Names : List String := ["extra", "notas", "hora", "tipo", "id"]

def c8Vals : List String :=
  ["spare", "richtig, \"gut\"", "2024-01-01T10:00:00.000Z", "leche", "a1"]

theorem claim_C8_witness :
    ((∀ n ∈ c8Names, cleanName n) ∧ (∀ v ∈ c8Vals, '\n' ∉ v.data) ∧
      c8Names ≠ [] ∧ c8Vals ≠ []) ∧
    fromCSV (csvText c8Names c8Vals) = Except.ok
      [{ id := hGet c8Names c8Vals "id", type := hGet c8Names c8Vals "tipo",
         time := hGet c8Names c8Vals "hora",
         amount := if hGet c8Names c8Vals "cantidad" = "" then none
                   else some (hGet c8Names c8Vals "cantidad"),
         notes := if hGet c8Names c8Vals "notas" = "" then none
                  else some (hGet c8Names c8Vals "notas") }] :=
  ⟨⟨by decide, by decide, by decide, by decide⟩,
    claim_C8_header_driven c8Names c8Vals (by decide) (by decide) (by decide) (by decide)⟩

example : jsParseMs "1970-01-01T00:00:00.000Z" = some 0 := by decide
example : jsParseMs "1970-01-02T00:00:00.000Z" = some 86400000 := by decide
example : jsParseMs "2024-02-29T12:00:00.000Z" = some 1709208000000 := by decide
example : jsParseMs "garbage" = none := by decide
example : jsParseMs "" = none := by decide
example : toISOString 1709208000000 = "2024-02-29T12:00:00.000Z" := by decide
example : toISOString 0 = "1970-01-01T00:00:00.000Z" := by decide
